import Mathlib

/-
  Verification development for the path_tag_fs repository.

  The embedding below models the persistent storage engine formed by
  src/path_tag_fs.rs (the file-system operations), src/block_cache.rs
  (the write-through block cache owning the free-space bitmap) and
  src/block_io.rs (the on-disk codec of the block kinds).

  Shallow-embedding conventions used throughout:
  * u64/u32/u16/u8/usize values are Nat; wrap-around is written with
    explicit % 2 ^ w exactly where the Rust code can wrap or truncate.
  * Rust Vec and array cells are Lean lists; indexing is `lget` with the
    default value 0 and assignment is `lset` (out-of-range reads of the
    model return the default, matching only in-range uses of the source;
    every theorem below stays in the in-range regime of the source).
  * The HashMap of cached blocks is an association list; insertion is
    cons (the newest binding shadows older ones exactly as HashMap
    insert replaces) and lookup takes the first binding.
  * The BlockCache is write-through and, within one session, every block
    the engine ever reads was first written through the cache, so the
    backing image file is not modelled: a cache miss yields `none`.
  * SystemTime is a Nat of nanoseconds since the Unix epoch.
  * `while` loops of the source walk block chains; the model gives them
    fuel. Loops that the source bounds by the cache content get the
    fuel `c.blocks.length + 1`, which is enough for every acyclic chain
    held in the cache; loops exposed to the theorems (find_child,
    list_children, read) take the fuel as an argument.
-/

set_option maxRecDepth 100000
set_option maxHeartbeats 4000000

namespace PTF

/-- List indexing with a default value, modelling indexing into a Rust
array or Vec (the source only indexes in range; theorems below stay in
that regime). -/
def lget {α : Type} (d : α) : List α → Nat → α
  | [], _ => d
  | x :: _, 0 => x
  | _ :: xs, n + 1 => lget d xs n

/-- Pointwise list update, modelling assignment into a Rust array or
Vec; an out-of-range index leaves the list unchanged. -/
def lset {α : Type} : List α → Nat → α → List α
  | [], _, _ => []
  | _ :: xs, 0, v => v :: xs
  | x :: xs, n + 1, v => x :: lset xs n v

/-- Block size in bytes, `path_tag_fs.rs`: `pub const BLOCK_SIZE:usize = 2048`. -/
def BLOCK_SIZE : Nat := 2048

/-- Modelled from the spec: the constant `TAGS` is imported by
`block_cache.rs` from `path_tag_fs`, but the revision of
`path_tag_fs.rs` in the repository does not contain its definition.
The spec fixes the tag-reserve count `T = 16`. -/
def TAGS : Nat := 16

/-- Modelled from the spec: `MAX_ENTRIES` is imported from the `nodes`
module whose current revision is missing from the repository; the spec
fixes `E = B/256 = 8` entries per DirectoryBlock. -/
def MAX_ENTRIES : Nat := 8

/-- `fuser::FileType`. -/
inductive FileType : Type
  | namedPipe
  | charDevice
  | blockDevice
  | directory
  | regularFile
  | symlink
  | socket
deriving DecidableEq, Repr

/-- `fuser::FileAttr`; all scalar fields are Nat, times are nanoseconds
since the Unix epoch. -/
structure FileAttr : Type where
  ino : Nat
  size : Nat
  blocks : Nat
  atime : Nat
  mtime : Nat
  ctime : Nat
  crtime : Nat
  kind : FileType
  perm : Nat
  nlink : Nat
  uid : Nat
  gid : Nat
  rdev : Nat
  flags : Nat
  blksize : Nat
deriving DecidableEq, Repr

/-- `nodes::EntryBlock` (inode): name, tag flag, attributes and the
head block number of the directory chain or index chain. -/
structure EntryBlock : Type where
  name : String
  is_tag : Bool
  attr : FileAttr
  more_data : Nat
deriving DecidableEq, Repr

/-- Modelled from the spec where the current `nodes.rs` is missing: a
directory entry is an inode number and a name. -/
structure DirectoryEntry : Type where
  ino : Nat
  name : String
deriving DecidableEq, Repr

/-- `nodes::DirectoryBlock`: up to MAX_ENTRIES entries plus the chain
link `next` (0 terminates the chain). -/
structure DirectoryBlock : Type where
  entries : List DirectoryEntry
  next : Nat
deriving DecidableEq, Repr

/-- `nodes::IndexBlock`: BLOCK_SIZE/8 - 1 = 255 data-block slots plus
the chain link `next`, as serialised by `block_io.rs`. -/
structure IndexBlock : Type where
  block : List Nat
  next : Nat
deriving DecidableEq, Repr

/-- `nodes::DataBlock`: BLOCK_SIZE raw bytes. -/
structure DataBlock : Type where
  data : List Nat
deriving DecidableEq, Repr

/-- `nodes::AnyBlock`. -/
inductive AnyBlock : Type
  | entry (b : EntryBlock)
  | dir (b : DirectoryBlock)
  | index (b : IndexBlock)
  | data (b : DataBlock)
deriving DecidableEq, Repr

/-- `nodes.rs` `make_attr`: default attributes of a fresh inode. -/
def make_attr (ino : Nat) (kind : FileType) (now : Nat) : FileAttr :=
  { ino := ino
    size := 0
    blocks := 0
    atime := now
    mtime := now
    ctime := now
    crtime := now
    kind := kind
    perm := if kind = .directory then 0o755 else 0o644
    nlink := 2
    uid := 501
    gid := 100
    rdev := 0
    flags := 0
    blksize := BLOCK_SIZE }

/-- `EntryBlock::new(name, ino, kind, is_tag)`; the clock value `now`
is passed explicitly to keep the model deterministic. -/
def EntryBlock.new (name : String) (ino : Nat) (kind : FileType)
    (is_tag : Bool) (now : Nat) : EntryBlock :=
  { name := name, is_tag := is_tag, attr := make_attr ino kind now, more_data := 0 }

/-- `IndexBlock::new()`: all 255 slots zero, next = 0. -/
def IndexBlock.new : IndexBlock :=
  { block := List.replicate (BLOCK_SIZE / 8 - 1) 0, next := 0 }

/-- `DataBlock::new()`: BLOCK_SIZE zero bytes. -/
def DataBlock.new : DataBlock :=
  { data := List.replicate BLOCK_SIZE 0 }

/-- `block_cache::BlockCache`: free-space bitmap, reserved tag blocks,
and the residency map of decoded blocks. -/
structure BlockCache : Type where
  bitmap : List (List Nat)
  tags : List EntryBlock
  blocks : List (Nat × AnyBlock)
deriving DecidableEq, Repr

/-- First-match association-list lookup, modelling `HashMap::get` under
the cons-as-insert convention. -/
def lookupB (no : Nat) : List (Nat × AnyBlock) → Option AnyBlock
  | [] => none
  | (k, v) :: t => if k = no then some v else lookupB no t

/-- `BlockCache::calculate_bit_addr`: bitmap block, byte within the
block, bit within the byte. -/
def calculate_bit_addr (bit_no : Nat) : Nat × Nat × Nat :=
  let bm_block := bit_no / (BLOCK_SIZE * 8)
  let bm_byte := (bit_no - bm_block * (BLOCK_SIZE * 8)) / 8
  let bm_bit := bit_no % 8
  (bm_block, bm_byte, bm_bit)

/-- Core of `BlockCache::take_block`, acting on the bitmap value:
`data[byte] |= 1 << bit`. -/
def takeBitB (bm : List (List Nat)) (bit_no : Nat) : List (List Nat) :=
  let a := calculate_bit_addr bit_no
  lset bm a.1 (lset (lget [] bm a.1) a.2.1
    (lget 0 (lget [] bm a.1) a.2.1 ||| (1 <<< a.2.2)))

/-- Core of `BlockCache::get_bitmap_bit`: `(data[byte] & (1 << bit)) > 0`. -/
def getBitB (bm : List (List Nat)) (bit_no : Nat) : Bool :=
  let a := calculate_bit_addr bit_no
  decide (0 < (lget 0 (lget [] bm a.1) a.2.1 &&& (1 <<< a.2.2)))

/-- Inner loop of `BlockCache::find_free_block`: scan `count` bit
positions upward from `bit_no` for a clear bit. -/
def ffbBits (bm : List (List Nat)) (bit_no : Nat) : Nat → Option Nat
  | 0 => none
  | count + 1 =>
    if getBitB bm bit_no = false then some bit_no else ffbBits bm (bit_no + 1) count

/-- Byte loop of `BlockCache::find_free_block`: the source scans bytes
`b` in `0..512` of bitmap block `n` and skips bytes equal to 255. -/
def ffbBytes (bm : List (List Nat)) (blkData : List Nat) (n b : Nat) :
    Nat → Option Nat
  | 0 => none
  | count + 1 =>
    match (if lget 0 blkData b ≠ 255
           then ffbBits bm (n * (BLOCK_SIZE * 8) + b * 8) 8
           else none) with
    | some r => some r
    | none => ffbBytes bm blkData n (b + 1) count

/-- Block loop of `BlockCache::find_free_block`. -/
def ffbBlocks (bm : List (List Nat)) (n : Nat) : Nat → Option Nat
  | 0 => none
  | count + 1 =>
    match ffbBytes bm (lget [] bm n) n 0 512 with
    | some r => some r
    | none => ffbBlocks bm (n + 1) count

/-- `BlockCache::find_free_block`: first clear bit in scan order, with
the source fallback value `block = 0` when the scan finds nothing. -/
def find_free_blockB (bm : List (List Nat)) : Nat :=
  (ffbBlocks bm 0 bm.length).getD 0

/-- Bitmap effect of `BlockCache::allocate_block`. -/
def allocB (bm : List (List Nat)) : Nat × List (List Nat) :=
  let n := find_free_blockB bm
  (n, takeBitB bm n)

/-- `BlockCache::take_block`. -/
def take_block (c : BlockCache) (bit_no : Nat) : BlockCache :=
  { c with bitmap := takeBitB c.bitmap bit_no }

/-- `BlockCache::get_bitmap_bit`. -/
def get_bitmap_bit (c : BlockCache) (bit_no : Nat) : Bool :=
  getBitB c.bitmap bit_no

/-- `BlockCache::find_free_block`. -/
def find_free_block (c : BlockCache) : Nat :=
  find_free_blockB c.bitmap

/-- `BlockCache::allocate_block`: find the first free bit, set it,
return its index (together with the successor state). -/
def allocate_block (c : BlockCache) : Nat × BlockCache :=
  let n := find_free_block c
  (n, take_block c n)

/-- `BlockCache::write_block`: write-through plus residency insert; the
image-file side is not modelled (see the header comment). -/
def write_block (c : BlockCache) (ab : AnyBlock) (no : Nat) : BlockCache :=
  { c with blocks := (no, ab) :: c.blocks }

/-- `BlockCache::retrieve_entry_block`; `none` covers both a miss and a
kind mismatch (the storage fault-in path is not modelled). -/
def retrieve_entry_block (c : BlockCache) (bno : Nat) : Option EntryBlock :=
  match lookupB bno c.blocks with
  | some (.entry eb) => some eb
  | _ => none

/-- `BlockCache::retrieve_directory_block`. -/
def retrieve_directory_block (c : BlockCache) (bno : Nat) : Option DirectoryBlock :=
  match lookupB bno c.blocks with
  | some (.dir db) => some db
  | _ => none

/-- `BlockCache::retrieve_index_block`. -/
def retrieve_index_block (c : BlockCache) (bno : Nat) : Option IndexBlock :=
  match lookupB bno c.blocks with
  | some (.index ib) => some ib
  | _ => none

/-- `BlockCache::retrieve_data_block`. -/
def retrieve_data_block (c : BlockCache) (bno : Nat) : Option DataBlock :=
  match lookupB bno c.blocks with
  | some (.data db) => some db
  | _ => none

/-- `BlockCache::size_filesystem`: build `size/(B*8) + 1` zeroed bitmap
blocks and TAGS tag-root entry blocks, then mark the bitmap blocks and
the tag blocks as taken (the image zeroing and the flush only touch the
unmodelled image file). -/
def size_filesystem (c : BlockCache) (size : Nat) (now : Nat) : BlockCache :=
  let bites_per_block := BLOCK_SIZE * 8
  let bm_size := size / bites_per_block + 1
  let c1 : BlockCache :=
    { c with
      bitmap := c.bitmap ++ List.replicate bm_size (List.replicate BLOCK_SIZE 0)
      tags := c.tags ++ (List.range TAGS).map
        (fun i => EntryBlock.new "" (3 + bm_size + i) .directory true now) }
  let c2 := (List.range bm_size).foldl (fun c i => take_block c (3 + i)) c1
  (List.range TAGS).foldl (fun c i => take_block c (3 + bm_size + i)) c2

/-- `path_tag_fs.rs` `comp`: byte-wise comparison of two strings, which
is exactly string equality. -/
def comp (one two : String) : Bool :=
  one == two

/-- First entry of a directory block whose name matches, as scanned by
the entry loop of `PathTagFs::find_child`. -/
def firstMatch (name : String) : List DirectoryEntry → Option Nat
  | [] => none
  | e :: t => if comp name e.name then some e.ino else firstMatch name t

/-- Chain walk of `PathTagFs::find_child` (`while next != 0`), with
fuel for the unbounded loop. `none` marks the panicking unwrap of a
non-directory chain block (or exhausted fuel); `some none` is a normal
not-found result. -/
def findChildGo (c : BlockCache) (name : String) : Nat → Nat → Option (Option Nat)
  | 0, _ => none
  | _ + 1, 0 => some none
  | fuel + 1, next =>
    match retrieve_directory_block c next with
    | none => none
    | some db =>
      match firstMatch name db.entries with
      | some ino => some (some ino)
      | none => findChildGo c name fuel db.next

/-- `PathTagFs::find_child`. -/
def find_child (c : BlockCache) (fuel : Nat) (parent_ino : Nat) (name : String) :
    Option (Option Nat) :=
  match retrieve_entry_block c parent_ino with
  | none => some none
  | some eb => findChildGo c name fuel eb.more_data

/-- Chain walk of `PathTagFs::list_children_names`. When a chain block
is not a directory block the source only logs and retries the same
block number forever; the model burns fuel on the same block, so the
loop shows up as fuel exhaustion (`none`). -/
def listNamesGo (c : BlockCache) : Nat → Nat → Option (List (Nat × String))
  | 0, _ => none
  | _ + 1, 0 => some []
  | fuel + 1, next =>
    match retrieve_directory_block c next with
    | none => listNamesGo c fuel next
    | some db =>
      (listNamesGo c fuel db.next).map
        (fun rest => db.entries.map (fun e => (e.ino, e.name)) ++ rest)

/-- `PathTagFs::list_children_names`; a parent that is not an entry
block yields the empty result, as in the source. -/
def list_children_names (c : BlockCache) (fuel : Nat) (parent_ino : Nat) :
    Option (List (Nat × String)) :=
  match retrieve_entry_block c parent_ino with
  | none => some []
  | some eb => listNamesGo c fuel eb.more_data

/-- `PathTagFs::find_filetype`. -/
def find_filetype (c : BlockCache) (ino : Nat) : Option FileType :=
  match retrieve_entry_block c ino with
  | none => none
  | some entry => some entry.attr.kind

/-- Kind lookup loop of `PathTagFs::list_children`; the source unwraps
`find_filetype`, so a child that is not an entry block panics, which
the model reports as `none`. -/
def kidsMap (c : BlockCache) : List (Nat × String) → Option (List (Nat × FileType × String))
  | [] => some []
  | (ino, n) :: t =>
    match find_filetype c ino with
    | none => none
    | some k => (kidsMap c t).map (fun rest => (ino, k, n) :: rest)

/-- `PathTagFs::list_children`. -/
def list_children (c : BlockCache) (fuel : Nat) (parent_ino : Nat) :
    Option (List (Nat × FileType × String)) :=
  match list_children_names c fuel parent_ino with
  | none => none
  | some names => kidsMap c names

/-- Chain walk of `PathTagFs::store_directory_entry`. Returns `(0, c)`
with the entry appended when a block with room was found, and
`(tail, c)` with the chain tail when every block was full. The fuel is
supplied by the caller; a non-directory chain block halts the source
process (unwrap), modelled as `(0, c)` and unreachable in the states
used below. -/
def storeGo (c : BlockCache) (name : String) (ino : Nat) : Nat → Nat → Nat × BlockCache
  | 0, next => (next, c)
  | fuel + 1, next =>
    match retrieve_directory_block c next with
    | none => (0, c)
    | some db =>
      if db.entries.length < MAX_ENTRIES then
        (0, { c with blocks :=
          (next, .dir { db with entries := db.entries ++ [⟨ino, name⟩] }) :: c.blocks })
      else if db.next = 0 then (next, c)
      else storeGo c name ino fuel db.next

/-- `PathTagFs::store_directory_entry`. The source loop terminates on
every acyclic chain resident in the cache, so `c.blocks.length + 1` is
enough fuel for all states this file evaluates. -/
def store_directory_entry (c : BlockCache) (parent_ino : Nat) (name : String)
    (ino : Nat) : Nat × BlockCache :=
  match retrieve_entry_block c parent_ino with
  | none => (0, c)
  | some parent =>
    if parent.more_data = 0 then (parent_ino, c)
    else storeGo c name ino (c.blocks.length + 1) parent.more_data

/-- `PathTagFs::extend_directory_chain`: allocate a directory block
holding the single new entry and hang it off the chain tail, which is
either a directory block or the parent entry block. -/
def extend_directory_chain (c : BlockCache) (tail : Nat) (name : String)
    (ino : Nat) : Nat × BlockCache :=
  let p := allocate_block c
  let bno := p.1
  let c1 := p.2
  let db : DirectoryBlock := { entries := [⟨ino, name⟩], next := 0 }
  let c2 := write_block c1 (.dir db) bno
  match retrieve_directory_block c2 tail with
  | some dir =>
    (bno, { c2 with blocks := (tail, .dir { dir with next := bno }) :: c2.blocks })
  | none =>
    match retrieve_entry_block c2 tail with
    | some entry =>
      (bno, { c2 with blocks := (tail, .entry { entry with more_data := bno }) :: c2.blocks })
    | none => (bno, c2)

/-- `PathTagFs::add_directory_entry`. -/
def add_directory_entry (c : BlockCache) (parent_ino : Nat) (name : String)
    (ino : Nat) : BlockCache :=
  let p := store_directory_entry c parent_ino name ino
  if p.1 ≠ 0 then (extend_directory_chain p.2 p.1 name ino).2 else p.2

/-- `PathTagFs::mknod`. -/
def mknod (c : BlockCache) (parent_ino : Nat) (name : String) (kind : FileType)
    (now : Nat) : Option FileAttr × BlockCache :=
  match retrieve_entry_block c parent_ino with
  | none => (none, c)
  | some _ =>
    let p := allocate_block c
    let bno := p.1
    let c1 := add_directory_entry p.2 parent_ino name bno
    let entry := EntryBlock.new name bno kind false now
    (some entry.attr, write_block c1 (.entry entry) bno)

/-- `PathTagFs::mkdir`. -/
def mkdir (c : BlockCache) (parent_ino : Nat) (name : String) (now : Nat) :
    Option FileAttr × BlockCache :=
  match retrieve_entry_block c parent_ino with
  | none => (none, c)
  | some _ =>
    let p := allocate_block c
    let bno := p.1
    let c1 := add_directory_entry p.2 parent_ino name bno
    let entry := EntryBlock.new name bno .directory false now
    let c2 := write_block c1 (.entry entry) bno
    let c3 := add_directory_entry c2 bno "." bno
    (some entry.attr, add_directory_entry c3 bno ".." parent_ino)

/-- `PathTagFs::mkfs`: size the file system, reserve blocks 0/1/2,
write the root inode, create `Pathes` and `Tags` (the flush and the
debugging listing have no modelled effect). -/
def mkfs (c : BlockCache) (ino_root : Nat) (size : Nat) (now : Nat) : BlockCache :=
  let c1 := size_filesystem c size now
  let c2 := take_block (take_block (take_block c1 0) 1) 2
  let root := EntryBlock.new "Root" ino_root .directory false now
  let c3 := write_block c2 (.entry root) ino_root
  let c4 := (mkdir c3 ino_root "Pathes" now).2
  (mkdir c4 ino_root "Tags" now).2

/-- List length with an accumulator, consuming eight cells per
recursive step, used where the source calls `len()` on file data so
that concrete block-sized lists evaluate within the shallow
kernel-recursion budget; `llen_eq` below identifies it with
`List.length`. -/
def llen {α : Type} : List α → Nat → Nat
  | _ :: _ :: _ :: _ :: _ :: _ :: _ :: _ :: t, acc => llen t (acc + 8)
  | [], acc => acc
  | _ :: t, acc => llen t (acc + 1)

/-- One step of the loop of `PathTagFs::write_data_blocks`: the counter
`j` is `n - start` of the source, so the byte window of step `j` starts
at `j * BLOCK_SIZE`. -/
def write_data_blocks_go (c : BlockCache) (data : List Nat) (j : Nat) :
    Nat → List Nat × BlockCache
  | 0 => ([], c)
  | count + 1 =>
    let p := allocate_block c
    let db_no := p.1
    let data_start := j * BLOCK_SIZE
    let data_size := min BLOCK_SIZE (llen data 0 - data_start)
    let db : DataBlock :=
      { data := (data.drop data_start).take data_size ++
          List.replicate (BLOCK_SIZE - data_size) 0 }
    let c2 := write_block p.2 (.data db) db_no
    let q := write_data_blocks_go c2 data (j + 1) count
    (db_no :: q.1, q.2)

/-- `PathTagFs::write_data_blocks`: one fresh data block per step for
`n` in `start..=end` with `start = offset/B` and `end = (offset +
data.len())/B`. -/
def write_data_blocks (c : BlockCache) (offset : Nat) (data : List Nat) :
    List Nat × BlockCache :=
  let start := offset / BLOCK_SIZE
  let e := (offset + llen data 0) / BLOCK_SIZE
  write_data_blocks_go c data 0 (e - start + 1)

/-- Slot-filling loop of `PathTagFs::write`:
`for i in 0..list.len() { ib.block[i] = list[i] }`. -/
def setSlotsGo (slots : List Nat) (i : Nat) : List Nat → List Nat
  | [] => slots
  | x :: t => setSlotsGo (lset slots i x) (i + 1) t

/-- `PathTagFs::write`. The source tests `offset < 0` but only logs and
then proceeds with `offset as usize`, modelled by `(offset % 2^64)`.
When the inode is not a resident entry block the source unwrap halts
the process; the model returns the state unchanged there (unreachable
in the states evaluated below). -/
def write (c : BlockCache) (inode : Nat) (offset : Int) (data : List Nat) :
    BlockCache :=
  let off : Nat := (offset % (2 ^ 64 : Nat)).toNat
  let p := write_data_blocks c off data
  let q := allocate_block p.2
  let ib_no := q.1
  let ib : IndexBlock := { IndexBlock.new with block := setSlotsGo IndexBlock.new.block 0 p.1 }
  let c3 := write_block q.2 (.index ib) ib_no
  match retrieve_entry_block c3 inode with
  | none => c3
  | some eb =>
    write_block c3
      (.entry { eb with more_data := ib_no, attr := { eb.attr with size := data.length } })
      inode

/-- Slot-collection loop of `PathTagFs::read`: push `ib.block[n]` for
`n` in `start..=end`. A slot index outside the array bounds panics in
the source; the model reports it as `none`. -/
def slotsRange (bl : List Nat) (start : Nat) : Nat → Option (List Nat)
  | 0 => some []
  | count + 1 =>
    if start < bl.length then
      (slotsRange bl (start + 1) count).map (fun rest => lget 0 bl start :: rest)
    else none

/-- Index-chain walk of `PathTagFs::read` (`while ib_no != 0`), with
fuel; a non-index block stops the walk as in the source, and `none`
propagates a panicking slot access. -/
def collectGo (c : BlockCache) (start e : Nat) : Nat → Nat → Option (List Nat)
  | 0, _ => some []
  | _ + 1, 0 => some []
  | fuel + 1, ib_no =>
    match retrieve_index_block c ib_no with
    | none => some []
    | some ib =>
      match (if lget 0 ib.block 0 ≠ 0 then slotsRange ib.block start (e + 1 - start)
             else some []) with
      | none => none
      | some part => (collectGo c start e fuel ib.next).map (fun rest => part ++ rest)

/-- Data loop of `PathTagFs::read`: append the full content of each
collected data block; a block that is not a data block only logs. -/
def readData (c : BlockCache) : List Nat → List Nat
  | [] => []
  | bno :: t =>
    (match retrieve_data_block c bno with
     | none => []
     | some db => db.data) ++ readData c t

/-- `PathTagFs::read`. A negative offset returns the empty result; the
`none` result marks the panicking out-of-bounds slot access. -/
def read (c : BlockCache) (fuel : Nat) (index_block : Nat) (offset : Int)
    (size : Nat) : Option (List Nat) :=
  if offset < 0 then some []
  else
    let start := offset.toNat / BLOCK_SIZE
    let e := (offset.toNat + size) / BLOCK_SIZE
    match collectGo c start e fuel index_block with
    | none => none
    | some list => some (readData c list)

/-! ## Concrete states used by the theorems -/

/-- A fresh cache before formatting. -/
def emptyCache : BlockCache := ⟨[], [], []⟩

/-- The state after `mkfs(1, 1024)` at clock 0: one bitmap block at 3,
tag blocks 4..19, `Pathes` at inode 20 (directory chain 21/22) and
`Tags` at inode 23 (directory chain 24). -/
def fs0 : BlockCache := mkfs emptyCache 1 1024 0

/-- `fs0` after `mknod(20, "f", regular-file)`: the file inode is 25. -/
def fsF : BlockCache := (mknod fs0 20 "f" .regularFile 0).2

/-- `fs0` after two `mkdir(20, "a")` calls: the directory of inode 20
now carries two entries named `a`, with inodes 25 and 27. -/
def fsDup : BlockCache := (mkdir (mkdir fs0 20 "a" 0).2 20 "a" 0).2

/-- A bitmap state with no free bit: one bitmap block, all bytes 255. -/
def fullCache : BlockCache := ⟨[List.replicate 2048 255], [], []⟩

/-- A bitmap state whose first free bit is bit 4096: bytes 0..512 of
the single bitmap block are 255 and bytes 512..2048 are 0. -/
def halfCache : BlockCache :=
  ⟨[List.replicate 512 255 ++ List.replicate 1536 0], [], []⟩

/-! ## Derived definitions used by the theorems -/

/-- Every bitmap block holds BLOCK_SIZE bytes, as guaranteed by the
`DataBlock` arrays of the source. -/
def BmWF (bm : List (List Nat)) : Prop :=
  ∀ blk ∈ bm, blk.length = 2048

/-- The reservation loops of `size_filesystem`:
`for i in 0..n { take_block(a + i) }`. -/
def takeRange (c : BlockCache) (a n : Nat) : BlockCache :=
  (List.range n).foldl (fun c i => take_block c (a + i)) c

/-- First inode with a matching name among `(ino, name)` pairs, the
list-level counterpart of the chain scan of `find_child`. -/
def firstIno (name : String) : List (Nat × String) → Option Nat
  | [] => none
  | (ino, n) :: t => if comp name n then some ino else firstIno name t

/-- First inode with a matching name among `list_children` triples. -/
def firstNamed (name : String) : List (Nat × FileType × String) → Option Nat
  | [] => none
  | (ino, _, n) :: t => if comp name n then some ino else firstNamed name t

/-- Block numbers handed out by `count` successive `allocate_block`
calls, tracking only the bitmap (block writes never touch it). -/
def allocs (bm : List (List Nat)) : Nat → List Nat
  | 0 => []
  | count + 1 =>
    find_free_blockB bm :: allocs (takeBitB bm (find_free_blockB bm)) count

/-- The bitmap after `count` successive `allocate_block` calls. -/
def allocsBm (bm : List (List Nat)) : Nat → List (List Nat)
  | 0 => bm
  | count + 1 => allocsBm (takeBitB bm (find_free_blockB bm)) count

/-- Content of the `j`-th data block cut from `data` by
`write_data_blocks`: `min B (len - jB)` bytes copied to the front of a
zeroed block. -/
def chunk (data : List Nat) (j : Nat) : DataBlock :=
  { data := (data.drop (j * BLOCK_SIZE)).take
      (min BLOCK_SIZE (data.length - j * BLOCK_SIZE)) ++
      List.replicate (BLOCK_SIZE - min BLOCK_SIZE (data.length - j * BLOCK_SIZE)) 0 }

/-- Number of data blocks created by one `write` call: the loop runs
for `n` in `start..=end` with `start = offset/B` and
`end = (offset + len)/B` (`llen data 0 = data.length` by `llen_eq`). -/
def wcount (offset : Nat) (data : List Nat) : Nat :=
  (offset + llen data 0) / BLOCK_SIZE - offset / BLOCK_SIZE + 1

/-- Full effect of one `write(ino, offset, data)` call on a state `c`
whose entry block for `ino` is `eb`: `wcount` fresh, pairwise-distinct
data blocks holding the consecutive slices of `data` (`chunk`), one
fresh IndexBlock whose first `wcount` slots name them (in order) with
all other slots and `next` zero, and the entry block updated to point
at it with `attr.size = len(data)`. -/
def WriteSpec (c : BlockCache) (ino : Nat) (offset : Int) (data : List Nat)
    (eb : EntryBlock) : Prop :=
  (allocs c.bitmap (wcount offset.toNat data)).length = wcount offset.toNat data ∧
  allocs c.bitmap (wcount offset.toNat data + 1) =
    allocs c.bitmap (wcount offset.toNat data) ++
      [find_free_blockB (allocsBm c.bitmap (wcount offset.toNat data))] ∧
  (allocs c.bitmap (wcount offset.toNat data + 1)).Nodup ∧
  (∀ b ∈ allocs c.bitmap (wcount offset.toNat data + 1),
    get_bitmap_bit c b = false) ∧
  (∀ i, i < wcount offset.toNat data →
    retrieve_data_block (write c ino offset data)
      (lget 0 (allocs c.bitmap (wcount offset.toNat data)) i) =
      some (chunk data i)) ∧
  retrieve_index_block (write c ino offset data)
      (find_free_blockB (allocsBm c.bitmap (wcount offset.toNat data))) =
    some ⟨allocs c.bitmap (wcount offset.toNat data) ++
      List.replicate (BLOCK_SIZE / 8 - 1 - wcount offset.toNat data) 0, 0⟩ ∧
  retrieve_entry_block (write c ino offset data) ino =
    some ⟨eb.name, eb.is_tag, { eb.attr with size := data.length },
      find_free_blockB (allocsBm c.bitmap (wcount offset.toNat data))⟩

/-- The `more_data` field of a resident entry block, the index-chain
head handed to `read` in the write/read-back scenario of C1 (0 when the
inode is not a resident entry block). -/
def moreDataOf (c : BlockCache) (ino : Nat) : Nat :=
  match retrieve_entry_block c ino with
  | some eb => eb.more_data
  | none => 0

/-- Concatenated contents of the data blocks `k, k+1, ..., k+n-1` cut
from `data` by the write loop (cf. `chunk`). -/
def joinChunks (data : List Nat) (k : Nat) : Nat → List Nat
  | 0 => []
  | n + 1 => (chunk data k).data ++ joinChunks data (k + 1) n

/-- A cache holding one 255-slot index block at block number 1, used to
instantiate the in-bounds hypothesis of C10 non-vacuously. -/
def ibCache : BlockCache :=
  ⟨[], [], [(1, .index ⟨List.replicate 255 3, 0⟩)]⟩

/-! ## The on-disk entry-block codec of `block_io.rs` -/

/-- `u64::to_le_bytes` as written by `store`: eight little-endian bytes
of the value as a `u64` (each byte is reduced `% 256`, which models the
`u64` width at the call boundary). -/
def store64 (v : Nat) : List Nat :=
  [v % 256, v / 256 % 256, v / 65536 % 256, v / 16777216 % 256,
   v / 4294967296 % 256, v / 1099511627776 % 256,
   v / 281474976710656 % 256, v / 72057594037927936 % 256]

/-- `u32::to_le_bytes` as written by `store_32`. -/
def store32 (v : Nat) : List Nat :=
  [v % 256, v / 256 % 256, v / 65536 % 256, v / 16777216 % 256]

/-- `store_time`: `duration_since(UNIX_EPOCH).as_millis() as u64` of a
nanosecond clock value. -/
def store_time (t : Nat) : List Nat := store64 (t / 1000000)

/-- `to_u64`: `u64::from_le_bytes` of the first eight bytes of a
slice. -/
def to_u64 (l : List Nat) : Nat :=
  lget 0 l 0 + 256 * (lget 0 l 1 + 256 * (lget 0 l 2 + 256 * (lget 0 l 3 +
    256 * (lget 0 l 4 + 256 * (lget 0 l 5 + 256 * (lget 0 l 6 +
    256 * lget 0 l 7))))))

/-- `to_u32`: `u32::from_le_bytes` of the first four bytes. -/
def to_u32 (l : List Nat) : Nat :=
  lget 0 l 0 + 256 * (lget 0 l 1 + 256 * (lget 0 l 2 + 256 * lget 0 l 3))

/-- `read_time`: `Duration::from_millis` back to nanoseconds. -/
def read_time (l : List Nat) : Nat := to_u64 l * 1000000

/-- `kind_to_u8`. -/
def kind_to_u8 : FileType → Nat
  | .namedPipe => 1
  | .charDevice => 2
  | .blockDevice => 3
  | .directory => 4
  | .regularFile => 5
  | .symlink => 6
  | .socket => 7

/-- `u8_to_kind`; the `todo!()` arms for 0 and 8..=255 panic in the
source and are `none` here. -/
def u8_to_kind : Nat → Option FileType
  | 1 => some .namedPipe
  | 2 => some .charDevice
  | 3 => some .blockDevice
  | 4 => some .directory
  | 5 => some .regularFile
  | 6 => some .symlink
  | 7 => some .socket
  | _ => none

/-- The eight magic bytes of `"PTFEntry".as_bytes()`. -/
def PTFEntryMagic : List Nat := [80, 84, 70, 69, 110, 116, 114, 121]

/-- `BlockIo::write_entry_block`: the BLOCK_SIZE-byte image written
for an entry block (the seek/IO plumbing is not modelled): magic at
0..8, u64 fields at 8..64, millisecond times at 32..64, u32 fields at
64..92, kind and tag bytes at 92/93, `more_data` at 96..104, zero
elsewhere.  The name is not stored. -/
def write_entry_block (b : EntryBlock) : List Nat :=
  PTFEntryMagic ++
  (store64 b.attr.ino ++ (store64 b.attr.size ++ (store64 b.attr.blocks ++
  (store_time b.attr.atime ++ (store_time b.attr.mtime ++
  (store_time b.attr.ctime ++ (store_time b.attr.crtime ++
  (store32 b.attr.perm ++ (store32 b.attr.nlink ++ (store32 b.attr.uid ++
  (store32 b.attr.gid ++ (store32 b.attr.rdev ++ (store32 b.attr.blksize ++
  (store32 b.attr.flags ++
  ([kind_to_u8 b.attr.kind, if b.is_tag then 1 else 0, 0, 0] ++
  (store64 b.more_data ++
  List.replicate (BLOCK_SIZE - 104) 0))))))))))))))))

/-- `BlockIo::read_entry_block` on one block image: the failed
`assert!`s (short read, bad magic) and the `todo!()` of `u8_to_kind`
panic in the source and are `none` here.  The name comes back empty;
`perm` is cast through `u16`. -/
def read_entry_block (data : List Nat) : Option EntryBlock :=
  if data.length = BLOCK_SIZE then
    if data.take 8 = PTFEntryMagic then
      match u8_to_kind (lget 0 data 92) with
      | none => none
      | some kind =>
        some { name := ""
               is_tag := lget 0 data 93 == 1
               attr := { ino := to_u64 (data.drop 8)
                         size := to_u64 (data.drop 16)
                         blocks := to_u64 (data.drop 24)
                         atime := read_time (data.drop 32)
                         mtime := read_time (data.drop 40)
                         ctime := read_time (data.drop 48)
                         crtime := read_time (data.drop 56)
                         kind := kind
                         perm := to_u32 (data.drop 64) % 65536
                         nlink := to_u32 (data.drop 68)
                         uid := to_u32 (data.drop 72)
                         gid := to_u32 (data.drop 76)
                         rdev := to_u32 (data.drop 80)
                         flags := to_u32 (data.drop 88)
                         blksize := to_u32 (data.drop 84) }
               more_data := to_u64 (data.drop 96) }
    else none
  else none

/-- A sample entry block with distinctive field values, used to
instantiate the amended C7 round trip. -/
def entrySample : EntryBlock :=
  ⟨"n", true, ⟨5, 10, 2, 1234567890123, 5000000, 999999, 7777777, .directory,
    493, 2, 501, 100, 7, 9, 2048⟩, 42⟩

/-! ## C3, C4: the allocator -/

/-- Claim C3: on a bitmap with no free bit, `allocate_block` does not
surface an out-of-space failure; it falls through to the `block = 0`
fallback of `find_free_block` and returns the reserved sentinel block
number 0, whose bitmap bit is already set. This evaluates the code at
the failing input of the claim. -/
theorem c3_full_bitmap_returns_sentinel :
    (allocate_block fullCache).1 = 0 ∧ get_bitmap_bit fullCache 0 = true := by
  constructor
  · decide
  · decide

/-- Claim C4: a bitmap state in which bit 4096 (byte 512 of bitmap
block 0) is the smallest free bit; `find_free_block` scans only bytes
0..512 of each 2048-byte bitmap block, never reaches byte 512, and so
`allocate_block` falls back to 0 (an already-taken reserved bit)
instead of returning 4096. -/
theorem c4_scan_misses_free_bit :
    get_bitmap_bit halfCache 4096 = false ∧
    get_bitmap_bit halfCache 4095 = true ∧
    (allocate_block halfCache).1 = 0 ∧
    get_bitmap_bit halfCache 0 = true := by
  refine ⟨by decide, by decide, by decide, by decide⟩

/-! ## C5: the tag flag -/

/-- Claim C5: after `mkfs(1, 1024)`, `find_child(1, "Tags")` yields
inode 23, but its entry block has `is_tag = false` (and so does
`Pathes` at inode 20): `mkfs` never re-marks the Tags inode, and
`mkdir`/`mknod` construct every child with the literal `false` instead
of the parent flag. This evaluates the code at the failing input of
the claim. -/
theorem c5_tags_flag_not_set :
    find_child fs0 10 1 "Tags" = some (some 23) ∧
    (retrieve_entry_block fs0 23).map (fun eb => eb.is_tag) = some false ∧
    find_child fs0 10 1 "Pathes" = some (some 20) ∧
    (retrieve_entry_block fs0 20).map (fun eb => eb.is_tag) = some false := by
  refine ⟨by decide, by decide, by decide, by decide⟩

/-! ## C8: negative write offset -/

/-- Claim C8: `write` with the negative offset -2048 does not leave the
state unchanged: the source only logs the error and then runs the write
with `offset as usize = 2^64 - 2048`, allocating a data block (26) and
an index block (27) and updating the entry block of inode 25 from
`(more_data, size) = (0, 0)` to `(27, 1)`. This evaluates the code at
the failing input of the claim. -/
theorem c8_negative_offset_mutates :
    (retrieve_entry_block (write fsF 25 (-2048) [42]) 25).map
      (fun eb => (eb.more_data, eb.attr.size)) = some (27, 1) ∧
    (retrieve_entry_block fsF 25).map
      (fun eb => (eb.more_data, eb.attr.size)) = some (0, 0) := by
  refine ⟨by decide, by decide⟩

/-! ## C2, C6, C9: counterexamples to the claims as stated -/

/-- Claim C2, counterexample: writing 2048 bytes at offset 0 to the
regular file of `fsF` allocates two data blocks, not
`end - start + 1 = 1` with `end = (offset + len - 1) / B` as the claim
states; the source computes `end = (offset + len) / B`, which adds an
extra (empty) block whenever B divides `offset + len`. -/
theorem c2_counterexample :
    (write_data_blocks fsF 0 (List.replicate 2048 7)).1.length ≠
      (0 + 2048 - 1) / BLOCK_SIZE - 0 / BLOCK_SIZE + 1 := by
  decide

/-- Claim C6, counterexample: in the reachable state `fsDup` (format,
then `mkdir(20, "a")` twice — the engine does not reject duplicate
names), `list_children(20)` contains the triple `(27, directory, "a")`,
but `find_child(20, "a")` returns the first match 25, not 27, so the
claimed equivalence fails for `i = 27`. -/
theorem c6_counterexample :
    list_children fsDup 10 20 =
      some [(20, .directory, "."), (1, .directory, ".."),
            (25, .directory, "a"), (27, .directory, "a")] ∧
    find_child fsDup 10 20 "a" = some (some 25) ∧
    find_child fsDup 10 20 "a" ≠ some (some 27) := by
  refine ⟨by decide, by decide, by decide⟩

/-- Claim C9, counterexample: formatting an image of exactly
`N = B·8 = 16384` blocks creates `N/(B·8) + 1 = 2` bitmap blocks,
not `⌈N/(B·8)⌉ = 1` as the claim states. -/
theorem c9_counterexample :
    (size_filesystem emptyCache 16384 0).bitmap.length ≠
      (16384 + (BLOCK_SIZE * 8 - 1)) / (BLOCK_SIZE * 8) := by
  decide

/-! ## Generic lemmas about `llen`, `lget` and `lset` -/

/-- `llen` computes the list length. -/
theorem llen_eq {α : Type} : ∀ (l : List α) (acc : Nat), llen l acc = l.length + acc
  | _ :: _ :: _ :: _ :: _ :: _ :: _ :: _ :: t, acc => by
    rw [llen, llen_eq t (acc + 8)]; simp; omega
  | [], _ => by simp [llen]
  | [_], acc => by simp [llen]; omega
  | [_, _], acc => by simp [llen]; omega
  | [_, _, _], acc => by simp [llen]; omega
  | [_, _, _, _], acc => by simp [llen]; omega
  | [_, _, _, _, _], acc => by simp [llen]; omega
  | [_, _, _, _, _, _], acc => by simp [llen]; omega
  | [_, _, _, _, _, _, _], acc => by simp [llen]; omega

theorem lset_length {α : Type} : ∀ (l : List α) (n : Nat) (v : α),
    (lset l n v).length = l.length
  | [], _, _ => rfl
  | _ :: _, 0, _ => rfl
  | _ :: xs, n + 1, v => by simp [lset, lset_length xs n v]

theorem lset_oob {α : Type} : ∀ (l : List α) (n : Nat) (v : α),
    l.length ≤ n → lset l n v = l
  | [], _, _, _ => rfl
  | _ :: _, 0, _, h => by simp at h
  | x :: xs, n + 1, v, h => by
    simp only [lset, List.cons.injEq, true_and]
    exact lset_oob xs n v (by simpa using h)

theorem lget_lset_self {α : Type} (d : α) : ∀ (l : List α) (n : Nat) (v : α),
    n < l.length → lget d (lset l n v) n = v
  | [], _, _, h => by simp at h
  | _ :: _, 0, _, _ => rfl
  | _ :: xs, n + 1, v, h => lget_lset_self d xs n v (by simpa using h)

theorem lget_lset_ne {α : Type} (d : α) : ∀ (l : List α) (n m : Nat) (v : α),
    n ≠ m → lget d (lset l n v) m = lget d l m
  | [], _, _, _, _ => rfl
  | _ :: _, 0, 0, _, h => absurd rfl h
  | _ :: _, 0, _ + 1, _, _ => rfl
  | _ :: _, _ + 1, 0, _, _ => rfl
  | _ :: xs, n + 1, m + 1, v, h =>
    lget_lset_ne d xs n m v (fun hx => h (by omega))

theorem lget_mem {α : Type} (d : α) : ∀ (l : List α) (n : Nat),
    n < l.length → lget d l n ∈ l
  | [], _, h => by simp at h
  | x :: _, 0, _ => List.mem_cons_self x _
  | _ :: xs, n + 1, h =>
    List.mem_cons_of_mem _ (lget_mem d xs n (by simpa using h))

theorem mem_lset {α : Type} (x : α) : ∀ (l : List α) (n : Nat) (v : α),
    x ∈ lset l n v → x ∈ l ∨ x = v
  | [], _, _, h => Or.inl h
  | _ :: _, 0, _, h => by
    rcases List.mem_cons.mp h with h | h
    · exact Or.inr h
    · exact Or.inl (List.mem_cons_of_mem _ h)
  | y :: xs, n + 1, v, h => by
    rcases List.mem_cons.mp h with h | h
    · exact Or.inl (h ▸ List.mem_cons_self y xs)
    · rcases mem_lset x xs n v h with h | h
      · exact Or.inl (List.mem_cons_of_mem _ h)
      · exact Or.inr h

theorem lget_replicate {α : Type} (d x : α) (n m : Nat) :
    lget d (List.replicate n x) m = if m < n then x else d := by
  induction n generalizing m with
  | zero => simp [lget]
  | succ k ih =>
    cases m with
    | zero => simp [List.replicate, lget]
    | succ m2 => simpa [List.replicate, lget] using ih m2

/-! ## Bit arithmetic lemmas -/

theorem orBit_self (x i : Nat) : 0 < (x ||| (1 <<< i)) &&& (1 <<< i) := by
  have h1 : (1 : Nat) <<< i = 2 ^ i := by rw [Nat.shiftLeft_eq, one_mul]
  rw [h1, Nat.and_two_pow, Nat.testBit_lor, Nat.testBit_two_pow_self]
  simp [Nat.pos_pow_of_pos]

theorem orBit_ne (x i j : Nat) (h : i ≠ j) :
    (0 < (x ||| (1 <<< i)) &&& (1 <<< j)) ↔ (0 < x &&& (1 <<< j)) := by
  have h1 : ∀ k : Nat, (1 : Nat) <<< k = 2 ^ k := fun k => by
    rw [Nat.shiftLeft_eq, one_mul]
  rw [h1, h1, Nat.and_two_pow, Nat.and_two_pow, Nat.testBit_lor,
    Nat.testBit_two_pow_of_ne h]
  simp

/-! ## Bitmap well-formedness and `take_block` lemmas -/

theorem cba_1 (k : Nat) : (calculate_bit_addr k).1 = k / 16384 := rfl

theorem cba_21 (k : Nat) :
    (calculate_bit_addr k).2.1 = (k - k / 16384 * 16384) / 8 := rfl

theorem cba_22 (k : Nat) : (calculate_bit_addr k).2.2 = k % 8 := rfl

theorem takeBitB_length (bm : List (List Nat)) (k : Nat) :
    (takeBitB bm k).length = bm.length := by
  simp [takeBitB, lset_length]

theorem takeBitB_oob (bm : List (List Nat)) (k : Nat)
    (h : bm.length ≤ k / 16384) : takeBitB bm k = bm := by
  simp only [takeBitB, cba_1, cba_21, cba_22]
  exact lset_oob _ _ _ h

theorem takeBitB_WF (bm : List (List Nat)) (k : Nat) (h : BmWF bm) :
    BmWF (takeBitB bm k) := by
  by_cases hb : k / 16384 < bm.length
  · intro blk hblk
    simp only [takeBitB, cba_1, cba_21, cba_22] at hblk
    rcases mem_lset blk _ _ _ hblk with hm | he
    · exact h blk hm
    · subst he
      rw [lset_length]
      exact h _ (lget_mem [] bm _ hb)
  · rw [takeBitB_oob bm k (by omega)]
    exact h

theorem getBitB_takeBitB_self (bm : List (List Nat)) (k : Nat)
    (h1 : k / 16384 < bm.length) (h2 : BmWF bm) :
    getBitB (takeBitB bm k) k = true := by
  have hblk : (lget [] bm (k / 16384)).length = 2048 :=
    h2 _ (lget_mem [] bm _ h1)
  simp only [getBitB, takeBitB, cba_1, cba_21, cba_22, decide_eq_true_eq]
  rw [lget_lset_self [] bm (k / 16384) _ h1,
    lget_lset_self 0 (lget [] bm (k / 16384)) ((k - k / 16384 * 16384) / 8) _
      (by omega)]
  exact orBit_self _ _

theorem getBitB_takeBitB_ne (bm : List (List Nat)) (k j : Nat) (h : j ≠ k) :
    getBitB (takeBitB bm k) j = getBitB bm j := by
  simp only [getBitB, takeBitB, cba_1, cba_21, cba_22]
  rw [decide_eq_decide]
  by_cases hblk : k / 16384 = j / 16384
  · by_cases hin : k / 16384 < bm.length
    · rw [← hblk, lget_lset_self [] bm (k / 16384) _ hin]
      by_cases hbyte : (k - k / 16384 * 16384) / 8 = (j - k / 16384 * 16384) / 8
      · have hbit : k % 8 ≠ j % 8 := by omega
        rw [← hbyte]
        by_cases hbin :
            (k - k / 16384 * 16384) / 8 < (lget [] bm (k / 16384)).length
        · rw [lget_lset_self 0 (lget [] bm (k / 16384))
              ((k - k / 16384 * 16384) / 8) _ hbin]
          exact orBit_ne _ _ _ hbit
        · rw [lset_oob (lget [] bm (k / 16384))
              ((k - k / 16384 * 16384) / 8) _ (by omega)]
      · rw [lget_lset_ne 0 (lget [] bm (k / 16384)) ((k - k / 16384 * 16384) / 8)
            ((j - k / 16384 * 16384) / 8) _ hbyte]
    · rw [lset_oob bm (k / 16384) _ (by omega)]
  · rw [lget_lset_ne [] bm (k / 16384) (j / 16384) _ hblk]

/-! ## Reserving a range of blocks (the loops of `size_filesystem`) -/

theorem takeRange_succ (c : BlockCache) (a n : Nat) :
    takeRange c a (n + 1) = take_block (takeRange c a n) (a + n) := by
  simp [takeRange, List.range_succ]

theorem takeRange_bitmap_length (c : BlockCache) (a n : Nat) :
    (takeRange c a n).bitmap.length = c.bitmap.length := by
  induction n with
  | zero => rfl
  | succ m ih => rw [takeRange_succ]; simp [take_block, takeBitB_length, ih]

theorem takeRange_tags (c : BlockCache) (a n : Nat) :
    (takeRange c a n).tags = c.tags := by
  induction n with
  | zero => rfl
  | succ m ih => rw [takeRange_succ]; simp [take_block, ih]

theorem takeRange_blocks (c : BlockCache) (a n : Nat) :
    (takeRange c a n).blocks = c.blocks := by
  induction n with
  | zero => rfl
  | succ m ih => rw [takeRange_succ]; simp [take_block, ih]

theorem takeRange_WF (c : BlockCache) (a n : Nat) (h : BmWF c.bitmap) :
    BmWF (takeRange c a n).bitmap := by
  induction n with
  | zero => exact h
  | succ m ih => rw [takeRange_succ]; exact takeBitB_WF _ _ ih

theorem getBit_takeRange_out (c : BlockCache) (a n j : Nat)
    (h : j < a ∨ a + n ≤ j) :
    get_bitmap_bit (takeRange c a n) j = get_bitmap_bit c j := by
  induction n with
  | zero => rfl
  | succ m ih =>
    rw [takeRange_succ]
    have hne : j ≠ a + m := by omega
    simp only [get_bitmap_bit, take_block]
    rw [getBitB_takeBitB_ne _ _ _ hne]
    exact ih (by omega)

theorem getBit_takeRange_mem (c : BlockCache) (a n j : Nat)
    (h1 : a ≤ j) (h2 : j < a + n) (hcap : j / 16384 < c.bitmap.length)
    (hwf : BmWF c.bitmap) :
    get_bitmap_bit (takeRange c a n) j = true := by
  induction n with
  | zero => omega
  | succ m ih =>
    rw [takeRange_succ]
    by_cases hj : j = a + m
    · subst hj
      simp only [get_bitmap_bit, take_block]
      exact getBitB_takeBitB_self _ _
        (by rw [takeRange_bitmap_length]; exact hcap) (takeRange_WF c a m hwf)
    · simp only [get_bitmap_bit, take_block]
      rw [getBitB_takeBitB_ne _ _ _ hj]
      exact ih (by omega)

/-! ## C9 amended: the bitmap state after `size_filesystem` -/

theorem getBitB_zeros (m k : Nat) :
    getBitB (List.replicate m (List.replicate 2048 0)) k = false := by
  simp only [getBitB, cba_1, cba_21, cba_22, lget_replicate]
  by_cases hb : k / 16384 < m
  · rw [if_pos hb, lget_replicate, ite_self]
    simp
  · rw [if_neg hb]
    simp [lget]

/-- Claim C9 amended: formatting an image of capacity N creates exactly
`M = N/(B·8) + 1` bitmap blocks (the source rounds with `/ ... + 1`,
one more than the claimed ceiling when `B·8` divides N) together with
`TAGS` tag-root blocks, and the resulting bitmap has exactly the bits
`3 .. 3 + M + TAGS` set: the M bitmap blocks at `3 .. 3 + M` and the
TAGS tag-root blocks that follow them, and nothing else (blocks 0/1/2
are reserved later, by `mkfs`). -/
theorem c9_amended (N : Nat) :
    (size_filesystem emptyCache N 0).bitmap.length = N / (BLOCK_SIZE * 8) + 1 ∧
    (size_filesystem emptyCache N 0).tags.length = TAGS ∧
    ∀ k, get_bitmap_bit (size_filesystem emptyCache N 0) k =
      decide (3 ≤ k ∧ k < 3 + (N / (BLOCK_SIZE * 8) + 1) + TAGS) := by
  have hB : BLOCK_SIZE * 8 = 16384 := rfl
  rw [hB]
  set M := N / 16384 + 1 with hM
  have hs : size_filesystem emptyCache N 0 =
      takeRange (takeRange
        ⟨List.replicate M (List.replicate 2048 0),
         (List.range TAGS).map
           (fun i => EntryBlock.new "" (3 + M + i) .directory true 0),
         []⟩ 3 M) (3 + M) TAGS := rfl
  set cInit : BlockCache :=
    ⟨List.replicate M (List.replicate 2048 0),
     (List.range TAGS).map (fun i => EntryBlock.new "" (3 + M + i) .directory true 0),
     []⟩ with hc
  have hwf : BmWF cInit.bitmap := by
    intro blk hblk
    rw [List.eq_of_mem_replicate hblk]
    simp
  have hlen : cInit.bitmap.length = M := by simp
  refine ⟨?_, ?_, ?_⟩
  · rw [hs, takeRange_bitmap_length, takeRange_bitmap_length, hlen]
  · rw [hs, takeRange_tags, takeRange_tags]
    simp
  · intro k
    rw [hs]
    by_cases hk : 3 ≤ k ∧ k < 3 + M + TAGS
    · rw [decide_eq_true hk]
      have hcap : k / 16384 < M := by
        have : TAGS = 16 := rfl
        omega
      by_cases hk2 : k < 3 + M
      · rw [getBit_takeRange_out _ _ _ _ (Or.inl hk2)]
        exact getBit_takeRange_mem _ _ _ _ hk.1 hk2 (by rw [hlen]; exact hcap) hwf
      · exact getBit_takeRange_mem _ _ _ _ (by omega) (by omega)
          (by rw [takeRange_bitmap_length, hlen]; exact hcap)
          (takeRange_WF _ _ _ hwf)
    · rw [decide_eq_false hk]
      have hk2 : k < 3 ∨ 3 + M + TAGS ≤ k := by
        rcases Nat.lt_or_ge k 3 with h | h
        · exact Or.inl h
        · right
          by_contra hcon
          exact hk ⟨h, by omega⟩
      rw [getBit_takeRange_out _ _ _ _ (by omega),
        getBit_takeRange_out _ _ _ _ (by omega)]
      exact getBitB_zeros M k

/-! ## C6 amended: `find_child` against `list_children` -/

theorem listNamesGo_stuck (c : BlockCache) (m : Nat)
    (hdb : retrieve_directory_block c (m + 1) = none) :
    ∀ fuel, listNamesGo c fuel (m + 1) = none := by
  intro fuel
  induction fuel with
  | zero => rfl
  | succ f ih =>
    rw [listNamesGo, hdb]
    · exact ih
    · omega

theorem firstIno_append_some (name : String) (entries : List DirectoryEntry)
    (rest : List (Nat × String)) (i : Nat) (h : firstMatch name entries = some i) :
    firstIno name (entries.map (fun e => (e.ino, e.name)) ++ rest) = some i := by
  induction entries with
  | nil => simp [firstMatch] at h
  | cons e t ih =>
    simp only [firstMatch] at h
    simp only [List.map_cons, List.cons_append, firstIno]
    by_cases hc : comp name e.name
    · rw [if_pos hc] at h
      rw [if_pos hc, h]
    · rw [if_neg hc] at h
      rw [if_neg hc]
      exact ih h

theorem firstIno_append_none (name : String) (entries : List DirectoryEntry)
    (rest : List (Nat × String)) (h : firstMatch name entries = none) :
    firstIno name (entries.map (fun e => (e.ino, e.name)) ++ rest) =
      firstIno name rest := by
  induction entries with
  | nil => simp [firstIno]
  | cons e t ih =>
    simp only [firstMatch] at h
    simp only [List.map_cons, List.cons_append, firstIno]
    by_cases hc : comp name e.name
    · rw [if_pos hc] at h
      exact absurd h (by simp)
    · rw [if_neg hc] at h
      rw [if_neg hc]
      exact ih h

theorem findChildGo_of_listNames (c : BlockCache) (name : String) :
    ∀ (fuel next : Nat) (ns : List (Nat × String)),
      listNamesGo c fuel next = some ns →
      findChildGo c name fuel next = some (firstIno name ns) := by
  intro fuel
  induction fuel with
  | zero =>
    intro next ns h
    simp [listNamesGo] at h
  | succ f ih =>
    intro next ns h
    cases next with
    | zero =>
      simp only [listNamesGo] at h
      have hns : ns = [] := by
        cases h
        rfl
      subst hns
      simp [findChildGo, firstIno]
    | succ m =>
      simp only [listNamesGo] at h
      cases hdb : retrieve_directory_block c (m + 1) with
      | none =>
        rw [hdb] at h
        rw [listNamesGo_stuck c m hdb f] at h
        exact absurd h (by simp)
      | some db =>
        rw [hdb] at h
        rcases Option.map_eq_some'.mp h with ⟨rest, hrest, hns⟩
        subst hns
        simp only [findChildGo, hdb]
        cases hfm : firstMatch name db.entries with
        | some i =>
          simp only [hfm, firstIno_append_some name db.entries rest i hfm]
        | none =>
          simp only [hfm, firstIno_append_none name db.entries rest hfm]
          exact ih db.next rest hrest

theorem firstNamed_kidsMap (c : BlockCache) (name : String) :
    ∀ (ns : List (Nat × String)) (l : List (Nat × FileType × String)),
      kidsMap c ns = some l → firstNamed name l = firstIno name ns := by
  intro ns
  induction ns with
  | nil =>
    intro l h
    simp only [kidsMap] at h
    have hl : l = [] := by
      cases h
      rfl
    subst hl
    rfl
  | cons p t ih =>
    intro l h
    obtain ⟨ino, n⟩ := p
    simp only [kidsMap] at h
    cases hft : find_filetype c ino with
    | none =>
      rw [hft] at h
      exact absurd h (by simp)
    | some k =>
      rw [hft] at h
      rcases Option.map_eq_some'.mp h with ⟨rest, hrest, hl⟩
      subst hl
      simp only [firstNamed, firstIno]
      by_cases hc : comp name n
      · rw [if_pos hc, if_pos hc]
      · rw [if_neg hc, if_neg hc]
        exact ih rest hrest

/-- Claim C6 amended: for every state and directory, whenever
`list_children(d)` returns normally with result `l`, `find_child(d, n)`
returns the inode of the FIRST triple of `l` whose name is `n` (`none`
when no triple matches); the direction "some `(i, _, n)` occurs in `l`
implies `find_child(d, n) = Some i`" fails for duplicate names, which
the engine does not reject (see the counterexample). -/
theorem c6_amended (c : BlockCache) (fuel p : Nat) (name : String)
    (l : List (Nat × FileType × String))
    (h : list_children c fuel p = some l) :
    find_child c fuel p name = some (firstNamed name l) := by
  simp only [list_children, list_children_names] at h
  simp only [find_child]
  cases heb : retrieve_entry_block c p with
  | none =>
    rw [heb] at h
    have hl : l = [] := by
      have h2 : kidsMap c [] = some l := h
      simp only [kidsMap] at h2
      cases h2
      rfl
    subst hl
    rfl
  | some eb =>
    rw [heb] at h
    replace h : (match listNamesGo c fuel eb.more_data with
        | none => none
        | some names => kidsMap c names) = some l := h
    show findChildGo c name fuel eb.more_data = some (firstNamed name l)
    cases hln : listNamesGo c fuel eb.more_data with
    | none =>
      rw [hln] at h
      exact absurd h (by simp)
    | some names =>
      rw [hln] at h
      replace h : kidsMap c names = some l := h
      rw [findChildGo_of_listNames c name fuel eb.more_data names hln,
        firstNamed_kidsMap c name names l h]

/-- Claim C6 amended, witness: the root directory of the formatted
image lists `Pathes` and `Tags`, and `find_child(1, "Tags")` returns
the first (and only) triple named `Tags`. -/
theorem c6_amended_witness :
    list_children fs0 10 1 =
      some [(20, FileType.directory, "Pathes"), (23, FileType.directory, "Tags")] ∧
    find_child fs0 10 1 "Tags" =
      some (firstNamed "Tags"
        [(20, FileType.directory, "Pathes"), (23, FileType.directory, "Tags")]) :=
  ⟨by decide, c6_amended fs0 10 1 "Tags" _ (by decide)⟩

/-! ## Allocator lemmas: a successful scan returns a free, in-range bit -/

theorem ffbBits_free (bm : List (List Nat)) :
    ∀ (count b k : Nat), ffbBits bm b count = some k → getBitB bm k = false := by
  intro count
  induction count with
  | zero => intro b k h; simp [ffbBits] at h
  | succ m ih =>
    intro b k h
    rw [ffbBits] at h
    by_cases hb : getBitB bm b = false
    · rw [if_pos hb] at h
      cases h
      exact hb
    · rw [if_neg hb] at h
      exact ih (b + 1) k h

theorem ffbBits_bounds (bm : List (List Nat)) :
    ∀ (count b k : Nat), ffbBits bm b count = some k → b ≤ k ∧ k < b + count := by
  intro count
  induction count with
  | zero => intro b k h; simp [ffbBits] at h
  | succ m ih =>
    intro b k h
    rw [ffbBits] at h
    by_cases hb : getBitB bm b = false
    · rw [if_pos hb] at h
      cases h
      omega
    · rw [if_neg hb] at h
      have := ih (b + 1) k h
      omega

theorem ffbBytes_free (bm : List (List Nat)) (blkData : List Nat) (n : Nat) :
    ∀ (count b k : Nat), ffbBytes bm blkData n b count = some k →
      getBitB bm k = false := by
  intro count
  induction count with
  | zero => intro b k h; simp [ffbBytes] at h
  | succ m ih =>
    intro b k h
    rw [ffbBytes] at h
    by_cases hb : lget 0 blkData b ≠ 255
    · rw [if_pos hb] at h
      cases hbits : ffbBits bm (n * (BLOCK_SIZE * 8) + b * 8) 8 with
      | none => rw [hbits] at h; exact ih (b + 1) k h
      | some r =>
        rw [hbits] at h
        cases h
        exact ffbBits_free bm 8 _ k hbits
    · rw [if_neg hb] at h
      exact ih (b + 1) k h

theorem ffbBytes_bounds (bm : List (List Nat)) (blkData : List Nat) (n : Nat) :
    ∀ (count b k : Nat), ffbBytes bm blkData n b count = some k →
      n * (BLOCK_SIZE * 8) + b * 8 ≤ k ∧ k < n * (BLOCK_SIZE * 8) + (b + count) * 8 := by
  intro count
  induction count with
  | zero => intro b k h; simp [ffbBytes] at h
  | succ m ih =>
    intro b k h
    rw [ffbBytes] at h
    by_cases hb : lget 0 blkData b ≠ 255
    · rw [if_pos hb] at h
      cases hbits : ffbBits bm (n * (BLOCK_SIZE * 8) + b * 8) 8 with
      | none =>
        rw [hbits] at h
        have := ih (b + 1) k h
        omega
      | some r =>
        rw [hbits] at h
        cases h
        have := ffbBits_bounds bm 8 _ k hbits
        omega
    · rw [if_neg hb] at h
      have := ih (b + 1) k h
      omega

theorem ffbBlocks_free (bm : List (List Nat)) :
    ∀ (count n k : Nat), ffbBlocks bm n count = some k → getBitB bm k = false := by
  intro count
  induction count with
  | zero => intro n k h; simp [ffbBlocks] at h
  | succ m ih =>
    intro n k h
    rw [ffbBlocks] at h
    cases hby : ffbBytes bm (lget [] bm n) n 0 512 with
    | none => rw [hby] at h; exact ih (n + 1) k h
    | some r =>
      rw [hby] at h
      cases h
      exact ffbBytes_free bm _ n 512 0 k hby

theorem ffbBlocks_bounds (bm : List (List Nat)) :
    ∀ (count n k : Nat), ffbBlocks bm n count = some k → n + count ≤ bm.length →
      k / 16384 < bm.length := by
  intro count
  induction count with
  | zero => intro n k h; simp [ffbBlocks] at h
  | succ m ih =>
    intro n k h hcap
    rw [ffbBlocks] at h
    cases hby : ffbBytes bm (lget [] bm n) n 0 512 with
    | none =>
      rw [hby] at h
      exact ih (n + 1) k h (by omega)
    | some r =>
      rw [hby] at h
      cases h
      have hb := ffbBytes_bounds bm _ n 512 0 k hby
      have hB : BLOCK_SIZE * 8 = 16384 := rfl
      rw [hB] at hb
      omega

/-- A scan whose fallback 0 was not used found a free bit inside the
bitmap capacity. -/
theorem ffb_success (bm : List (List Nat)) (h : find_free_blockB bm ≠ 0) :
    getBitB bm (find_free_blockB bm) = false ∧
      find_free_blockB bm / 16384 < bm.length := by
  unfold find_free_blockB at h ⊢
  cases hs : ffbBlocks bm 0 bm.length with
  | none => rw [hs] at h; simp at h
  | some k =>
    simp only [Option.getD_some]
    exact ⟨ffbBlocks_free bm bm.length 0 k hs,
      ffbBlocks_bounds bm bm.length 0 k hs (by omega)⟩

/-- Setting one bit never clears another: a set bit stays set. -/
theorem getBitB_takeBitB_mono (bm : List (List Nat)) (k j : Nat)
    (h : getBitB bm j = true) : getBitB (takeBitB bm k) j = true := by
  by_cases hjk : j = k
  · subst hjk
    by_cases hin : j / 16384 < bm.length
    · simp only [getBitB, takeBitB, cba_1, cba_21, cba_22,
        decide_eq_true_eq] at h ⊢
      rw [lget_lset_self [] bm (j / 16384) _ hin]
      by_cases hbin :
          (j - j / 16384 * 16384) / 8 < (lget [] bm (j / 16384)).length
      · rw [lget_lset_self 0 (lget [] bm (j / 16384))
            ((j - j / 16384 * 16384) / 8) _ hbin]
        exact orBit_self _ _
      · rw [lset_oob (lget [] bm (j / 16384))
            ((j - j / 16384 * 16384) / 8) _ (by omega)]
        exact h
    · rw [takeBitB_oob bm j (by omega)]
      exact h
  · rw [getBitB_takeBitB_ne bm k j hjk]
    exact h

/-! ## Lemmas about successive allocations -/

theorem allocs_length (bm : List (List Nat)) :
    ∀ n, (allocs bm n).length = n := by
  intro n
  induction n generalizing bm with
  | zero => rfl
  | succ m ih => simp [allocs, ih]

theorem allocsBm_length (bm : List (List Nat)) :
    ∀ n, (allocsBm bm n).length = bm.length := by
  intro n
  induction n generalizing bm with
  | zero => rfl
  | succ m ih => rw [allocsBm, ih, takeBitB_length]

theorem allocsBm_WF (bm : List (List Nat)) :
    ∀ n, BmWF bm → BmWF (allocsBm bm n) := by
  intro n
  induction n generalizing bm with
  | zero => exact fun h => h
  | succ m ih => exact fun h => ih _ (takeBitB_WF bm _ h)

theorem getBitB_allocsBm_mono (bm : List (List Nat)) (j : Nat) :
    ∀ n, getBitB bm j = true → getBitB (allocsBm bm n) j = true := by
  intro n
  induction n generalizing bm with
  | zero => exact fun h => h
  | succ m ih => exact fun h => ih _ (getBitB_takeBitB_mono bm _ j h)

theorem allocs_take (bm : List (List Nat)) :
    ∀ (n m : Nat), m ≤ n → allocs bm m = (allocs bm n).take m := by
  intro n
  induction n generalizing bm with
  | zero =>
    intro m hm
    have : m = 0 := by omega
    subst this
    rfl
  | succ p ih =>
    intro m hm
    cases m with
    | zero => rfl
    | succ q =>
      simp only [allocs, List.take_succ_cons, List.cons.injEq, true_and]
      exact ih _ _ (by omega)

theorem allocs_snoc (bm : List (List Nat)) :
    ∀ n, allocs bm (n + 1) =
      allocs bm n ++ [find_free_blockB (allocsBm bm n)] := by
  intro n
  induction n generalizing bm with
  | zero => rfl
  | succ m ih =>
    rw [allocs, ih (takeBitB bm (find_free_blockB bm))]
    rfl

theorem allocs_get (bm : List (List Nat)) :
    ∀ (n i : Nat), i < n →
      lget 0 (allocs bm n) i = find_free_blockB (allocsBm bm i) := by
  intro n
  induction n generalizing bm with
  | zero => intro i h; omega
  | succ m ih =>
    intro i h
    cases i with
    | zero => rfl
    | succ q =>
      show lget 0 (allocs (takeBitB bm (find_free_blockB bm)) m) q = _
      rw [ih _ q (by omega)]
      rfl

/-- Freshness of the allocator output: when none of `n` successive
allocations fell back to the sentinel 0, the returned block numbers
are pairwise distinct and all were free beforehand. -/
theorem allocs_fresh (bm : List (List Nat)) :
    ∀ n, BmWF bm → (0 ∉ allocs bm n) →
      (allocs bm n).Nodup ∧ ∀ b ∈ allocs bm n, getBitB bm b = false := by
  intro n
  induction n generalizing bm with
  | zero => intro _ _; simp [allocs]
  | succ m ih =>
    intro hwf h0
    simp only [allocs, List.mem_cons, not_or] at h0
    obtain ⟨hk0, hrest0⟩ := h0
    have hkf : getBitB bm (find_free_blockB bm) = false ∧
        find_free_blockB bm / 16384 < bm.length :=
      ffb_success bm (fun he => hk0 he.symm)
    have hihs := ih (takeBitB bm (find_free_blockB bm))
      (takeBitB_WF bm _ hwf) hrest0
    have hkset : getBitB (takeBitB bm (find_free_blockB bm))
        (find_free_blockB bm) = true :=
      getBitB_takeBitB_self bm _ hkf.2 hwf
    constructor
    · simp only [allocs, List.nodup_cons]
      refine ⟨fun hmem => ?_, hihs.1⟩
      have := hihs.2 _ hmem
      rw [hkset] at this
      cases this
    · simp only [allocs, List.mem_cons]
      rintro b (rfl | hmem)
      · exact hkf.1
      · by_contra hbt
        have hbt2 : getBitB bm b = true := by
          cases hb2 : getBitB bm b
          · exact absurd hb2 hbt
          · rfl
        have := getBitB_takeBitB_mono bm (find_free_blockB bm) b hbt2
        rw [hihs.2 b hmem] at this
        cases this

/-! ## The data-block loop of `write` -/

theorem wdbGo_succ (c : BlockCache) (data : List Nat) (j m : Nat) :
    write_data_blocks_go c data j (m + 1) =
      (find_free_blockB c.bitmap ::
        (write_data_blocks_go
          ⟨takeBitB c.bitmap (find_free_blockB c.bitmap), c.tags,
            (find_free_blockB c.bitmap,
              AnyBlock.data ⟨(data.drop (j * BLOCK_SIZE)).take
                  (min BLOCK_SIZE (llen data 0 - j * BLOCK_SIZE)) ++
                List.replicate
                  (BLOCK_SIZE - min BLOCK_SIZE (llen data 0 - j * BLOCK_SIZE)) 0⟩) ::
            c.blocks⟩ data (j + 1) m).1,
        (write_data_blocks_go
          ⟨takeBitB c.bitmap (find_free_blockB c.bitmap), c.tags,
            (find_free_blockB c.bitmap,
              AnyBlock.data ⟨(data.drop (j * BLOCK_SIZE)).take
                  (min BLOCK_SIZE (llen data 0 - j * BLOCK_SIZE)) ++
                List.replicate
                  (BLOCK_SIZE - min BLOCK_SIZE (llen data 0 - j * BLOCK_SIZE)) 0⟩) ::
            c.blocks⟩ data (j + 1) m).2) := rfl

theorem wdbGo_spec (data : List Nat) :
    ∀ (n : Nat) (c : BlockCache) (j : Nat),
      (write_data_blocks_go c data j n).1 = allocs c.bitmap n ∧
      (write_data_blocks_go c data j n).2.bitmap = allocsBm c.bitmap n ∧
      (write_data_blocks_go c data j n).2.tags = c.tags := by
  intro n
  induction n with
  | zero => intro c j; exact ⟨rfl, rfl, rfl⟩
  | succ m ih =>
    intro c j
    rw [wdbGo_succ]
    refine ⟨?_, ?_, ?_⟩
    · rw [allocs]
      exact congrArg _ (ih _ (j + 1)).1
    · exact (ih _ (j + 1)).2.1
    · exact (ih _ (j + 1)).2.2

theorem wdbGo_frame (data : List Nat) :
    ∀ (n : Nat) (c : BlockCache) (j key : Nat),
      key ∉ allocs c.bitmap n →
      lookupB key (write_data_blocks_go c data j n).2.blocks =
        lookupB key c.blocks := by
  intro n
  induction n with
  | zero => intro c j key _; rfl
  | succ m ih =>
    intro c j key hkey
    rw [allocs] at hkey
    simp only [List.mem_cons, not_or] at hkey
    rw [wdbGo_succ]
    rw [ih _ (j + 1) key hkey.2]
    simp only [lookupB]
    rw [if_neg (fun he => hkey.1 he.symm)]

theorem wdbGo_content (data : List Nat) :
    ∀ (n : Nat) (c : BlockCache) (j i : Nat), i < n →
      (allocs c.bitmap n).Nodup →
      lookupB (lget 0 (allocs c.bitmap n) i)
          (write_data_blocks_go c data j n).2.blocks =
        some (.data (chunk data (j + i))) := by
  intro n
  induction n with
  | zero => intro c j i h _; omega
  | succ m ih =>
    intro c j i hi hnd
    rw [allocs] at hnd
    simp only [List.nodup_cons] at hnd
    rw [wdbGo_succ]
    cases i with
    | zero =>
      rw [show lget 0 (allocs c.bitmap (m + 1)) 0 = find_free_blockB c.bitmap
        from by rw [allocs]; rfl]
      rw [wdbGo_frame data m _ (j + 1) _ hnd.1]
      simp [lookupB, chunk, llen_eq]
    | succ q =>
      rw [show lget 0 (allocs c.bitmap (m + 1)) (q + 1) =
          lget 0 (allocs (takeBitB c.bitmap (find_free_blockB c.bitmap)) m) q
        from by rw [allocs]; rfl]
      have hqm : q < m := by omega
      have hq := ih
        ⟨takeBitB c.bitmap (find_free_blockB c.bitmap), c.tags,
          (find_free_blockB c.bitmap,
            AnyBlock.data ⟨(data.drop (j * BLOCK_SIZE)).take
                (min BLOCK_SIZE (llen data 0 - j * BLOCK_SIZE)) ++
              List.replicate
                (BLOCK_SIZE - min BLOCK_SIZE (llen data 0 - j * BLOCK_SIZE)) 0⟩) ::
            c.blocks⟩ (j + 1) q hqm hnd.2
      rw [show j + 1 + q = j + (q + 1) from by omega] at hq
      exact hq

/-! ## The slot-filling loop of `write` -/

theorem lset_take_succ {α : Type} (x : α) :
    ∀ (slots : List α) (i : Nat), i < slots.length →
      (lset slots i x).take (i + 1) = slots.take i ++ [x]
  | [], i, h => by simp at h
  | a :: t, 0, _ => by simp [lset]
  | a :: t, i + 1, h => by
    simp only [lset, List.take_succ_cons, List.cons_append, List.cons.injEq, true_and]
    exact lset_take_succ x t i (by simpa using h)

theorem lset_drop {α : Type} (x : α) :
    ∀ (slots : List α) (i m : Nat), i < m →
      (lset slots i x).drop m = slots.drop m
  | [], _, _, _ => rfl
  | a :: t, 0, m, h => by
    cases m with
    | zero => omega
    | succ m2 => rfl
  | a :: t, i + 1, m, h => by
    cases m with
    | zero => omega
    | succ m2 =>
      simp only [lset, List.drop_succ_cons]
      exact lset_drop x t i m2 (by omega)

theorem setSlotsGo_spec :
    ∀ (l slots : List Nat) (i : Nat), i + l.length ≤ slots.length →
      setSlotsGo slots i l = slots.take i ++ l ++ slots.drop (i + l.length)
  | [], slots, i, h => by
    simp [setSlotsGo, List.take_append_drop]
  | x :: t, slots, i, h => by
    rw [setSlotsGo, setSlotsGo_spec t (lset slots i x) (i + 1)
      (by rw [lset_length]; simp at h; omega)]
    rw [lset_take_succ x slots i (by simp at h; omega),
      lset_drop x slots i (i + 1 + t.length) (by omega)]
    rw [show i + 1 + t.length = i + (x :: t).length from by simp; omega]
    simp [List.append_assoc]

theorem drop_replicate {α : Type} (x : α) :
    ∀ (n m : Nat), (List.replicate n x).drop m = List.replicate (n - m) x := by
  intro n
  induction n with
  | zero => intro m; simp
  | succ k ih =>
    intro m
    cases m with
    | zero => rfl
    | succ m2 =>
      rw [List.replicate_succ, List.drop_succ_cons, ih m2]
      congr 1
      omega

theorem setSlots_replicate (l : List Nat) (n : Nat) (h : l.length ≤ n) :
    setSlotsGo (List.replicate n 0) 0 l = l ++ List.replicate (n - l.length) 0 := by
  rw [setSlotsGo_spec l (List.replicate n 0) 0 (by simpa using h)]
  rw [List.take_zero, List.nil_append, Nat.zero_add, drop_replicate]

/-! ## The assembled state after one `write` call -/

/-- The cache produced by `write`, spelled out: the data blocks of
`write_data_blocks_go`, one index block at the next free number whose
slot array is filled by `setSlotsGo`, and the updated entry block in
front.  No bound on the slot count is needed at this stage. -/
theorem write_eq (c : BlockCache) (ino : Nat) (offset : Int) (data : List Nat)
    (eb : EntryBlock)
    (hoff0 : 0 ≤ offset) (hoff1 : offset < 2 ^ 64)
    (hwf : BmWF c.bitmap)
    (hz : 0 ∉ allocs c.bitmap (wcount offset.toNat data + 1))
    (hino : get_bitmap_bit c ino = true)
    (heb : lookupB ino c.blocks = some (.entry eb)) :
    write c ino offset data =
      ⟨takeBitB (allocsBm c.bitmap (wcount offset.toNat data))
          (find_free_blockB (allocsBm c.bitmap (wcount offset.toNat data))),
        c.tags,
        (ino, .entry ⟨eb.name, eb.is_tag, { eb.attr with size := data.length },
          find_free_blockB (allocsBm c.bitmap (wcount offset.toNat data))⟩) ::
        (find_free_blockB (allocsBm c.bitmap (wcount offset.toNat data)),
          .index ⟨setSlotsGo (List.replicate 255 0) 0
            (allocs c.bitmap (wcount offset.toNat data)), 0⟩) ::
        (write_data_blocks_go c data 0 (wcount offset.toNat data)).2.blocks⟩ := by
  have hoff2 : (offset % ((2 ^ 64 : Nat) : Int)).toNat = offset.toNat := by
    rw [Int.emod_eq_of_lt hoff0 (by exact_mod_cast hoff1)]
  have hcnteq : write_data_blocks c offset.toNat data =
      write_data_blocks_go c data 0 (wcount offset.toNat data) := rfl
  have h1 : (write_data_blocks_go c data 0 (wcount offset.toNat data)).1 =
      allocs c.bitmap (wcount offset.toNat data) :=
    (wdbGo_spec data (wcount offset.toNat data) c 0).1
  have h2 : (write_data_blocks_go c data 0 (wcount offset.toNat data)).2.bitmap =
      allocsBm c.bitmap (wcount offset.toNat data) :=
    (wdbGo_spec data (wcount offset.toNat data) c 0).2.1
  have h3 : (write_data_blocks_go c data 0 (wcount offset.toNat data)).2.tags =
      c.tags :=
    (wdbGo_spec data (wcount offset.toNat data) c 0).2.2
  have hfresh := allocs_fresh c.bitmap (wcount offset.toNat data + 1) hwf hz
  have hsnoc := allocs_snoc c.bitmap (wcount offset.toNat data)
  have hbs_sub : ∀ b, b ∈ allocs c.bitmap (wcount offset.toNat data) →
      b ∈ allocs c.bitmap (wcount offset.toNat data + 1) := by
    intro b hb
    rw [hsnoc]
    exact List.mem_append_left _ hb
  have hino_notin : ino ∉ allocs c.bitmap (wcount offset.toNat data + 1) := by
    intro hmem
    have hf := hfresh.2 ino hmem
    have ht : getBitB c.bitmap ino = true := hino
    rw [ht] at hf
    cases hf
  have hibno_mem :
      find_free_blockB (allocsBm c.bitmap (wcount offset.toNat data)) ∈
        allocs c.bitmap (wcount offset.toNat data + 1) := by
    rw [hsnoc]
    exact List.mem_append_right _ (List.mem_singleton.mpr rfl)
  have hne_ino_ibno :
      ino ≠ find_free_blockB (allocsBm c.bitmap (wcount offset.toNat data)) :=
    fun he => hino_notin (he ▸ hibno_mem)
  simp only [write]
  rw [hoff2, hcnteq, h1]
  simp only [allocate_block, find_free_block, take_block, write_block]
  rw [h2]
  rw [show IndexBlock.new.block = List.replicate 255 0 from rfl]
  rw [show IndexBlock.new.next = 0 from rfl]
  have hr : retrieve_entry_block
      ⟨takeBitB (allocsBm c.bitmap (wcount offset.toNat data))
          (find_free_blockB (allocsBm c.bitmap (wcount offset.toNat data))),
        (write_data_blocks_go c data 0 (wcount offset.toNat data)).2.tags,
        (find_free_blockB (allocsBm c.bitmap (wcount offset.toNat data)),
          .index ⟨setSlotsGo (List.replicate 255 0) 0
            (allocs c.bitmap (wcount offset.toNat data)), 0⟩) ::
        (write_data_blocks_go c data 0 (wcount offset.toNat data)).2.blocks⟩
      ino = some eb := by
    simp only [retrieve_entry_block, lookupB]
    rw [if_neg (fun he => hne_ino_ibno he.symm)]
    rw [wdbGo_frame data (wcount offset.toNat data) c 0 ino
      (fun hm => hino_notin (hbs_sub _ hm))]
    rw [heb]
  rw [hr, h3]

/-- The full effect of one `write` call, packaged as `WriteSpec`: under
the hypotheses of the amended claim C2 the slot-filling loop stays
inside the 255-slot array and the index block carries the allocated
block numbers followed by zeros. -/
theorem writeSpec_holds (c : BlockCache) (ino : Nat) (offset : Int)
    (data : List Nat) (eb : EntryBlock)
    (hoff0 : 0 ≤ offset) (hoff1 : offset < 2 ^ 64)
    (halign : offset.toNat % BLOCK_SIZE = 0)
    (hwf : BmWF c.bitmap)
    (hz : 0 ∉ allocs c.bitmap (wcount offset.toNat data + 1))
    (hcnt : wcount offset.toNat data ≤ BLOCK_SIZE / 8 - 1)
    (hino : get_bitmap_bit c ino = true)
    (heb : lookupB ino c.blocks = some (.entry eb)) :
    WriteSpec c ino offset data eb := by
  have hfresh := allocs_fresh c.bitmap (wcount offset.toNat data + 1) hwf hz
  have hsnoc := allocs_snoc c.bitmap (wcount offset.toNat data)
  have hbs_nodup : (allocs c.bitmap (wcount offset.toNat data)).Nodup := by
    rw [allocs_take c.bitmap (wcount offset.toNat data + 1)
      (wcount offset.toNat data) (by omega)]
    exact List.Nodup.sublist (List.take_sublist _ _) hfresh.1
  have hbs_sub : ∀ b, b ∈ allocs c.bitmap (wcount offset.toNat data) →
      b ∈ allocs c.bitmap (wcount offset.toNat data + 1) := by
    intro b hb
    rw [hsnoc]
    exact List.mem_append_left _ hb
  have hino_notin : ino ∉ allocs c.bitmap (wcount offset.toNat data + 1) := by
    intro hmem
    have hf := hfresh.2 ino hmem
    have ht : getBitB c.bitmap ino = true := hino
    rw [ht] at hf
    cases hf
  have hibno_mem :
      find_free_blockB (allocsBm c.bitmap (wcount offset.toNat data)) ∈
        allocs c.bitmap (wcount offset.toNat data + 1) := by
    rw [hsnoc]
    exact List.mem_append_right _ (List.mem_singleton.mpr rfl)
  have hne_ino_ibno :
      ino ≠ find_free_blockB (allocsBm c.bitmap (wcount offset.toNat data)) :=
    fun he => hino_notin (he ▸ hibno_mem)
  have hibno_notin_bs :
      find_free_blockB (allocsBm c.bitmap (wcount offset.toNat data)) ∉
        allocs c.bitmap (wcount offset.toNat data) := by
    intro hmem
    have hnd := hfresh.1
    rw [hsnoc] at hnd
    rcases List.nodup_append.mp hnd with ⟨_, _, hdisj⟩
    exact hdisj hmem (List.mem_singleton.mpr rfl)
  have hw : write c ino offset data =
      ⟨takeBitB (allocsBm c.bitmap (wcount offset.toNat data))
          (find_free_blockB (allocsBm c.bitmap (wcount offset.toNat data))),
        c.tags,
        (ino, .entry ⟨eb.name, eb.is_tag, { eb.attr with size := data.length },
          find_free_blockB (allocsBm c.bitmap (wcount offset.toNat data))⟩) ::
        (find_free_blockB (allocsBm c.bitmap (wcount offset.toNat data)),
          .index ⟨allocs c.bitmap (wcount offset.toNat data) ++
            List.replicate (255 - wcount offset.toNat data) 0, 0⟩) ::
        (write_data_blocks_go c data 0 (wcount offset.toNat data)).2.blocks⟩ := by
    rw [write_eq c ino offset data eb hoff0 hoff1 hwf hz hino heb]
    rw [setSlots_replicate (allocs c.bitmap (wcount offset.toNat data)) 255
      (by rw [allocs_length]; exact hcnt)]
    rw [allocs_length]
  refine ⟨allocs_length _ _, hsnoc, hfresh.1,
    (fun b hb => hfresh.2 b hb), ?_, ?_, ?_⟩
  · intro i hi
    rw [hw]
    simp only [retrieve_data_block, lookupB]
    have hmem : lget 0 (allocs c.bitmap (wcount offset.toNat data)) i ∈
        allocs c.bitmap (wcount offset.toNat data) := by
      apply lget_mem
      rw [allocs_length]
      exact hi
    have hne1 : ¬(ino = lget 0 (allocs c.bitmap (wcount offset.toNat data)) i) := by
      intro he
      exact hino_notin (hbs_sub _ (he ▸ hmem))
    have hne2 : ¬(find_free_blockB (allocsBm c.bitmap (wcount offset.toNat data)) =
        lget 0 (allocs c.bitmap (wcount offset.toNat data)) i) := by
      intro he
      exact hibno_notin_bs (he ▸ hmem)
    rw [if_neg hne1, if_neg hne2]
    rw [wdbGo_content data (wcount offset.toNat data) c 0 i hi hbs_nodup]
    rw [Nat.zero_add]
  · rw [hw]
    simp only [retrieve_index_block, lookupB]
    rw [if_neg hne_ino_ibno]
    simp [BLOCK_SIZE]
  · rw [hw]
    simp only [retrieve_entry_block, lookupB]
    simp

/-- Claim C2 amended: for every state with a well-formed bitmap, every
block-aligned offset in `[0, 2^64)` and every data, provided the
`wcount + 1` allocations neither fall back to the sentinel 0 (out of
space, C3/C4) nor exceed the 255 index slots, and the inode is an
allocated resident entry block, `write` creates exactly
`wcount = (offset + len)/B - offset/B + 1` fresh pairwise-distinct data
blocks — one more than the count `(offset + len - 1)/B - offset/B + 1`
stated by the claim whenever B divides `offset + len` — holding the
consecutive slices of `data` from byte 0 of each block, plus one
IndexBlock whose first `wcount` slots hold those block numbers with
`next = 0`, and sets the entry block to `more_data = ` that IndexBlock
and `attr.size = len(data)`. (For offsets that are not a multiple of B
the source slice arithmetic panics, hence the alignment hypothesis.) -/
theorem c2_amended (c : BlockCache) (ino : Nat) (offset : Int) (data : List Nat)
    (eb : EntryBlock)
    (hoff0 : 0 ≤ offset) (hoff1 : offset < 2 ^ 64)
    (halign : offset.toNat % BLOCK_SIZE = 0)
    (hwf : BmWF c.bitmap)
    (hz : 0 ∉ allocs c.bitmap (wcount offset.toNat data + 1))
    (hcnt : wcount offset.toNat data ≤ BLOCK_SIZE / 8 - 1)
    (hino : get_bitmap_bit c ino = true)
    (heb : lookupB ino c.blocks = some (.entry eb)) :
    WriteSpec c ino offset data eb :=
  writeSpec_holds c ino offset data eb hoff0 hoff1 halign hwf hz hcnt hino heb

/-! ## Bitmap well-formedness through the engine operations -/

theorem storeGo_bitmap (c : BlockCache) (name : String) (ino : Nat) :
    ∀ (fuel next : Nat), (storeGo c name ino fuel next).2.bitmap = c.bitmap := by
  intro fuel
  induction fuel with
  | zero => intro next; rfl
  | succ f ih =>
    intro next
    rw [storeGo]
    split
    · rfl
    · split
      · rfl
      · split
        · rfl
        · exact ih _

theorem store_directory_entry_bitmap (c : BlockCache) (p : Nat) (name : String)
    (ino : Nat) : (store_directory_entry c p name ino).2.bitmap = c.bitmap := by
  rw [store_directory_entry]
  split
  · rfl
  · split
    · rfl
    · exact storeGo_bitmap c name ino _ _

theorem extend_directory_chain_WF (c : BlockCache) (tail : Nat) (name : String)
    (ino : Nat) (h : BmWF c.bitmap) :
    BmWF (extend_directory_chain c tail name ino).2.bitmap := by
  rw [extend_directory_chain]
  cases retrieve_directory_block
      (write_block (allocate_block c).2 (.dir ⟨[⟨ino, name⟩], 0⟩)
        (allocate_block c).1) tail with
  | some dir => exact takeBitB_WF _ _ h
  | none =>
    cases retrieve_entry_block
        (write_block (allocate_block c).2 (.dir ⟨[⟨ino, name⟩], 0⟩)
          (allocate_block c).1) tail with
    | some entry => exact takeBitB_WF _ _ h
    | none => exact takeBitB_WF _ _ h

theorem add_directory_entry_WF (c : BlockCache) (p : Nat) (name : String)
    (ino : Nat) (h : BmWF c.bitmap) :
    BmWF (add_directory_entry c p name ino).bitmap := by
  rw [add_directory_entry]
  by_cases ht : (store_directory_entry c p name ino).1 ≠ 0
  · rw [if_pos ht]
    apply extend_directory_chain_WF
    rw [store_directory_entry_bitmap]
    exact h
  · rw [if_neg ht]
    rw [store_directory_entry_bitmap]
    exact h

theorem mknod_WF (c : BlockCache) (p : Nat) (name : String) (kind : FileType)
    (now : Nat) (h : BmWF c.bitmap) :
    BmWF (mknod c p name kind now).2.bitmap := by
  rw [mknod]
  cases retrieve_entry_block c p with
  | none => exact h
  | some eb =>
    exact add_directory_entry_WF _ p name _ (takeBitB_WF _ _ h)

theorem mkdir_WF (c : BlockCache) (p : Nat) (name : String) (now : Nat)
    (h : BmWF c.bitmap) : BmWF (mkdir c p name now).2.bitmap := by
  rw [mkdir]
  cases retrieve_entry_block c p with
  | none => exact h
  | some eb =>
    exact add_directory_entry_WF _ _ _ _
      (add_directory_entry_WF _ _ _ _
        (add_directory_entry_WF _ _ _ _ (takeBitB_WF _ _ h)))

theorem size_filesystem_eq (c : BlockCache) (size now : Nat) :
    size_filesystem c size now =
      takeRange (takeRange
        ⟨c.bitmap ++ List.replicate (size / 16384 + 1) (List.replicate 2048 0),
         c.tags ++ (List.range TAGS).map
           (fun i => EntryBlock.new "" (3 + (size / 16384 + 1) + i) .directory true now),
         c.blocks⟩ 3 (size / 16384 + 1))
        (3 + (size / 16384 + 1)) TAGS := rfl

theorem size_filesystem_WF (c : BlockCache) (size now : Nat) (h : BmWF c.bitmap) :
    BmWF (size_filesystem c size now).bitmap := by
  rw [size_filesystem_eq]
  apply takeRange_WF
  apply takeRange_WF
  intro blk hblk
  rcases List.mem_append.mp hblk with hm | hm
  · exact h blk hm
  · rw [List.eq_of_mem_replicate hm]
    simp

theorem mkfs_eq (c : BlockCache) (root size now : Nat) :
    mkfs c root size now =
      (mkdir (mkdir
        (write_block (take_block (take_block (take_block
            (size_filesystem c size now) 0) 1) 2)
          (.entry (EntryBlock.new "Root" root .directory false now)) root)
        root "Pathes" now).2 root "Tags" now).2 := rfl

theorem write_block_bitmap (c : BlockCache) (ab : AnyBlock) (no : Nat) :
    (write_block c ab no).bitmap = c.bitmap := rfl

theorem take_block_bitmap (c : BlockCache) (k : Nat) :
    (take_block c k).bitmap = takeBitB c.bitmap k := rfl

theorem mkfs_WF (c : BlockCache) (root size now : Nat) (h : BmWF c.bitmap) :
    BmWF (mkfs c root size now).bitmap := by
  rw [mkfs_eq]
  apply mkdir_WF
  apply mkdir_WF
  rw [write_block_bitmap, take_block_bitmap, take_block_bitmap, take_block_bitmap]
  exact takeBitB_WF _ _ (takeBitB_WF _ _ (takeBitB_WF _ _
    (size_filesystem_WF c size now h)))

theorem fsF_WF : BmWF fsF.bitmap := by
  have h0 : BmWF (⟨[], [], []⟩ : BlockCache).bitmap := by
    intro blk hblk
    cases hblk
  exact mknod_WF fs0 20 "f" .regularFile 0 (mkfs_WF emptyCache 1 1024 0 h0)

/-- Claim C2 amended, witness: writing 2048 bytes at offset 0 to the
regular file of `fsF` (inode 25); the allocation count is 2, the block
numbers are 26 and 27 with index block 28. -/
theorem c2_amended_witness :
    (0 : Int) ≤ 0 ∧ (0 : Int) < 2 ^ 64 ∧ (0 : Int).toNat % BLOCK_SIZE = 0 ∧
    BmWF fsF.bitmap ∧
    0 ∉ allocs fsF.bitmap (wcount (0 : Int).toNat (List.replicate 2048 7) + 1) ∧
    wcount (0 : Int).toNat (List.replicate 2048 7) ≤ BLOCK_SIZE / 8 - 1 ∧
    get_bitmap_bit fsF 25 = true ∧
    lookupB 25 fsF.blocks =
      some (.entry (EntryBlock.new "f" 25 .regularFile false 0)) ∧
    WriteSpec fsF 25 0 (List.replicate 2048 7)
      (EntryBlock.new "f" 25 .regularFile false 0) :=
  ⟨by decide, by decide, by decide, fsF_WF, by decide, by decide, by decide,
    by decide,
    c2_amended fsF 25 0 (List.replicate 2048 7)
      (EntryBlock.new "f" 25 .regularFile false 0) (by decide) (by decide)
      (by decide) fsF_WF (by decide) (by decide) (by decide) (by decide)⟩

/-! ## Reading back: `slotsRange`, `collectGo` and `readData` -/

theorem lget_append_left {α : Type} (d : α) :
    ∀ (l1 l2 : List α) (n : Nat), n < l1.length →
      lget d (l1 ++ l2) n = lget d l1 n
  | [], _, n, h => by simp at h
  | x :: t, l2, 0, _ => rfl
  | x :: t, l2, n + 1, h =>
    lget_append_left d t l2 n (by simpa using h)

theorem drop_lget {α : Type} (d : α) :
    ∀ (l : List α) (s : Nat), s < l.length →
      l.drop s = lget d l s :: l.drop (s + 1)
  | [], s, h => by simp at h
  | x :: t, 0, _ => rfl
  | x :: t, s + 1, h => by
    simp only [List.drop_succ_cons, lget]
    exact drop_lget d t s (by simpa using h)

theorem slotsRange_spec :
    ∀ (n : Nat) (bl : List Nat) (s : Nat), s + n ≤ bl.length →
      slotsRange bl s n = some ((bl.drop s).take n)
  | 0, bl, s, _ => by simp [slotsRange]
  | n + 1, bl, s, h => by
    rw [slotsRange, if_pos (by omega)]
    rw [slotsRange_spec n bl (s + 1) (by omega)]
    rw [drop_lget 0 bl s (by omega)]
    rfl

theorem slotsRange_none :
    ∀ (count : Nat) (bl : List Nat) (s : Nat), bl.length ≤ s + count →
      slotsRange bl s (count + 1) = none
  | 0, bl, s, h => by
    rw [slotsRange, if_neg (by omega)]
  | count + 1, bl, s, h => by
    rw [slotsRange]
    by_cases hs : s < bl.length
    · rw [if_pos hs, slotsRange_none count bl (s + 1) (by omega)]
      rfl
    · rw [if_neg hs]

theorem setSlotsGo_length :
    ∀ (l slots : List Nat) (i : Nat), (setSlotsGo slots i l).length = slots.length
  | [], _, _ => rfl
  | x :: t, slots, i => by
    rw [setSlotsGo, setSlotsGo_length t (lset slots i x) (i + 1), lset_length]

theorem setSlotsGo_lget_lt :
    ∀ (l slots : List Nat) (i j : Nat), j < i →
      lget 0 (setSlotsGo slots i l) j = lget 0 slots j
  | [], _, _, _, _ => rfl
  | x :: t, slots, i, j, h => by
    rw [setSlotsGo, setSlotsGo_lget_lt t (lset slots i x) (i + 1) j (by omega)]
    exact lget_lset_ne 0 slots i j x (by omega)

theorem setSlotsGo_head (slots : List Nat) (x : Nat) (t : List Nat)
    (h : 0 < slots.length) :
    lget 0 (setSlotsGo slots 0 (x :: t)) 0 = x := by
  rw [setSlotsGo, setSlotsGo_lget_lt t (lset slots 0 x) 1 0 (by omega)]
  exact lget_lset_self 0 slots 0 x h

theorem readData_chunks (c : BlockCache) (data : List Nat) :
    ∀ (bsl : List Nat) (k : Nat),
      (∀ i, i < bsl.length →
        retrieve_data_block c (lget 0 bsl i) = some (chunk data (k + i))) →
      readData c bsl = joinChunks data k bsl.length
  | [], k, _ => rfl
  | b :: t, k, h => by
    rw [readData]
    have h0 : retrieve_data_block c b = some (chunk data k) := by
      have := h 0 (by simp)
      simpa using this
    rw [h0]
    have ht : readData c t = joinChunks data (k + 1) t.length := by
      apply readData_chunks c data t (k + 1)
      intro i hi
      have := h (i + 1) (by simpa using Nat.succ_lt_succ hi)
      rw [show k + (i + 1) = k + 1 + i from by omega] at this
      exact this
    rw [ht]
    rfl

theorem take_append_ge {α : Type} :
    ∀ (l1 l2 : List α) (n : Nat), l1.length ≤ n →
      (l1 ++ l2).take n = l1 ++ l2.take (n - l1.length)
  | [], l2, n, _ => by simp
  | x :: t, l2, n, h => by
    cases n with
    | zero => simp at h
    | succ m =>
      simp only [List.cons_append, List.take_succ_cons]
      rw [take_append_ge t l2 m (by simpa using h)]
      simp

theorem chunk_shift (data : List Nat) (k : Nat) :
    chunk data (k + 1) = chunk (data.drop BLOCK_SIZE) k := by
  unfold chunk
  have h1 : data.drop ((k + 1) * BLOCK_SIZE) =
      (data.drop BLOCK_SIZE).drop (k * BLOCK_SIZE) := by
    rw [List.drop_drop]
    congr 1
    ring
  have h2 : (data.drop BLOCK_SIZE).length = data.length - BLOCK_SIZE := by
    simp
  have h3 : min BLOCK_SIZE (data.length - (k + 1) * BLOCK_SIZE) =
      min BLOCK_SIZE (data.length - BLOCK_SIZE - k * BLOCK_SIZE) := by
    simp only [BLOCK_SIZE]
    omega
  rw [h1, h2, h3]

theorem joinChunks_shift :
    ∀ (n : Nat) (data : List Nat) (k : Nat),
      joinChunks data (k + 1) n = joinChunks (data.drop BLOCK_SIZE) k n
  | 0, _, _ => rfl
  | n + 1, data, k => by
    rw [joinChunks, joinChunks, chunk_shift,
      joinChunks_shift n data (k + 1)]

/-- The concatenated chunk contents of a whole write at offset 0 start
with the written data; the tail of the last chunk is zero padding. -/
theorem joinChunks_take :
    ∀ (n : Nat) (data : List Nat), data.length / BLOCK_SIZE = n →
      (joinChunks data 0 (n + 1)).take data.length = data
  | 0, data, h => by
    have hlen : data.length < 2048 := by
      simp only [BLOCK_SIZE] at h
      omega
    rw [joinChunks, joinChunks, List.append_nil, chunk]
    simp only [Nat.zero_mul, List.drop_zero, Nat.sub_zero]
    have hmin : min BLOCK_SIZE data.length = data.length := by
      simp only [BLOCK_SIZE]
      omega
    rw [hmin, List.take_length]
    rw [take_append_ge data _ data.length (Nat.le_refl _)]
    simp
  | n + 1, data, h => by
    have hge : 2048 ≤ data.length := by
      simp only [BLOCK_SIZE] at h
      by_contra hc
      rw [Nat.div_eq_of_lt (by omega)] at h
      omega
    rw [joinChunks, joinChunks_shift (n + 1) data 0]
    have hchunk0 : (chunk data 0).data = data.take 2048 := by
      rw [chunk]
      simp only [Nat.zero_mul, List.drop_zero, Nat.sub_zero]
      have hmin : min BLOCK_SIZE data.length = 2048 := by
        simp only [BLOCK_SIZE]
        omega
      rw [hmin]
      simp [BLOCK_SIZE]
    rw [hchunk0]
    rw [take_append_ge (data.take 2048) _ data.length (by simp)]
    have hrec := joinChunks_take n (data.drop BLOCK_SIZE)
      (by simp only [List.length_drop, BLOCK_SIZE] at *; omega)
    rw [show (data.take 2048).length = 2048 from by simp; omega]
    rw [show data.length - 2048 = (data.drop BLOCK_SIZE).length from by
      simp [BLOCK_SIZE]]
    rw [hrec]
    simp [BLOCK_SIZE]

/-- Index-chain walk over a single index block with `next = 0`: the
result collects slots `0..=e` of the slot array. -/
theorem collectGo_single (c : BlockCache) (e fuel : Nat) (ibno : Nat)
    (bl : List Nat)
    (hibz : ibno ≠ 0)
    (hret : retrieve_index_block c ibno = some ⟨bl, 0⟩)
    (h0 : lget 0 bl 0 ≠ 0)
    (hlen : e + 1 ≤ bl.length) :
    collectGo c 0 e (fuel + 2) ibno = some (bl.take (e + 1)) := by
  obtain ⟨m, rfl⟩ := Nat.exists_eq_succ_of_ne_zero hibz
  rw [show fuel + 2 = (fuel + 1) + 1 from rfl]
  rw [collectGo, hret]
  show (match (if lget 0 bl 0 ≠ 0 then slotsRange bl 0 (e + 1 - 0)
      else some []) with
    | none => none
    | some part => (collectGo c 0 e (fuel + 1) 0).map
        (fun rest => part ++ rest)) = some (bl.take (e + 1))
  rw [if_pos h0, Nat.sub_zero, slotsRange_spec (e + 1) bl 0 (by omega),
    List.drop_zero]
  show (collectGo c 0 e (fuel + 1) 0).map
      (fun rest => bl.take (e + 1) ++ rest) = some (bl.take (e + 1))
  rw [show collectGo c 0 e (fuel + 1) 0 = some [] from rfl]
  simp
  omega

/-- Index-chain walk over a single index block whose slot array is too
short for `e`: the slot loop runs out of bounds (a panic in the
source, `none` in the model). -/
theorem collectGo_oob (c : BlockCache) (e fuel : Nat) (ibno : Nat)
    (bl : List Nat)
    (hibz : ibno ≠ 0)
    (hret : retrieve_index_block c ibno = some ⟨bl, 0⟩)
    (h0 : lget 0 bl 0 ≠ 0)
    (hlen : bl.length ≤ e) :
    collectGo c 0 e (fuel + 2) ibno = none := by
  obtain ⟨m, rfl⟩ := Nat.exists_eq_succ_of_ne_zero hibz
  rw [show fuel + 2 = (fuel + 1) + 1 from rfl]
  rw [collectGo, hret]
  show (match (if lget 0 bl 0 ≠ 0 then slotsRange bl 0 (e + 1 - 0)
      else some []) with
    | none => none
    | some part => (collectGo c 0 e (fuel + 1) 0).map
        (fun rest => part ++ rest)) = none
  cases e with
  | zero =>
    have hbnil : bl = [] := by
      cases bl with
      | nil => rfl
      | cons a t => simp at hlen
    subst hbnil
    exact absurd rfl h0
  | succ e2 =>
    rw [if_pos h0, Nat.sub_zero, slotsRange_none (e2 + 1) bl 0 (by omega)]
  omega

/-- When `(offset+size)/B` is below the slot-array length of every
resident index block, the chain walk never reaches the out-of-bounds
slot access. -/
theorem collectGo_ne_none (c : BlockCache) (start e : Nat)
    (hse : start ≤ e)
    (hb : ∀ bno ib, retrieve_index_block c bno = some ib →
      e < ib.block.length) :
    ∀ (fuel ibno : Nat), collectGo c start e fuel ibno ≠ none := by
  intro fuel
  induction fuel with
  | zero => intro ibno h; simp [collectGo] at h
  | succ f ih =>
    intro ibno
    cases ibno with
    | zero => intro h; simp [collectGo] at h
    | succ m =>
      intro h
      rw [collectGo] at h <;> try omega
      cases hr : retrieve_index_block c (m + 1) with
      | none => rw [hr] at h; simp at h
      | some ib =>
        rw [hr] at h
        replace h : (match (if lget 0 ib.block 0 ≠ 0 then
            slotsRange ib.block start (e + 1 - start) else some []) with
          | none => none
          | some part => (collectGo c start e f ib.next).map
              (fun rest => part ++ rest)) = none := h
        have hlen := hb (m + 1) ib hr
        by_cases h0 : lget 0 ib.block 0 ≠ 0
        · rw [if_pos h0] at h
          rw [slotsRange_spec (e + 1 - start) ib.block start (by omega)] at h
          cases hc : collectGo c start e f ib.next with
          | none => exact ih ib.next hc
          | some l => rw [hc] at h; simp at h
        · rw [if_neg h0] at h
          cases hc : collectGo c start e f ib.next with
          | none => exact ih ib.next hc
          | some l => rw [hc] at h; simp at h

/-- A successful `retrieve_index_block` pins the underlying cache
entry. -/
theorem retrieve_index_inv (c : BlockCache) (bno : Nat) (ib : IndexBlock)
    (h : retrieve_index_block c bno = some ib) :
    lookupB bno c.blocks = some (.index ib) := by
  rw [retrieve_index_block] at h
  cases hl : lookupB bno c.blocks with
  | none => rw [hl] at h; cases h
  | some ab =>
    rw [hl] at h
    cases ab with
    | entry b => cases h
    | dir b => cases h
    | index b => cases h; rfl
    | data b => cases h

/-- `read` at offset 0, with the branch on the sign of the offset and
the two division-derived loop bounds discharged. -/
theorem read_eval (c : BlockCache) (fuel ib size : Nat) :
    read c fuel ib 0 size =
      match collectGo c 0 (size / BLOCK_SIZE) fuel ib with
      | none => none
      | some list => some (readData c list) := by
  have h0 : ((0 : Int).toNat + size) / BLOCK_SIZE = size / BLOCK_SIZE := by
    norm_num
  rw [read, if_neg (by norm_num : ¬((0 : Int) < 0))]
  show (match collectGo c ((0 : Int).toNat / BLOCK_SIZE)
      (((0 : Int).toNat + size) / BLOCK_SIZE) fuel ib with
    | none => none
    | some list => some (readData c list)) =
      match collectGo c 0 (size / BLOCK_SIZE) fuel ib with
      | none => none
      | some list => some (readData c list)
  rw [h0]
  rfl

/-! ## C1: write followed by read at offset 0 -/

/-- Claim C1, counterexample: the claim quantifies over every data
length `L ≥ 1` spanning more than one block, but a write of
`L = 255 * B = 522240` bytes needs 256 data blocks while
`IndexBlock::new` has only 255 slots, so the slot-filling loop of
`write` runs out of the array and the read back of the claim hits an
out-of-bounds slot access (a panic in the source, `none` in the model)
instead of returning the data. -/
theorem c1_counterexample :
    read (write fsF 25 0 (List.replicate 522240 7)) 300
      (moreDataOf (write fsF 25 0 (List.replicate 522240 7)) 25) 0 522240 =
      none := by
  have hcw : wcount (0 : Int).toNat (List.replicate 522240 7) = 256 := by
    show wcount 0 (List.replicate 522240 7) = 256
    rw [wcount, llen_eq, List.length_replicate]
    decide
  have hz : 0 ∉ allocs fsF.bitmap
      (wcount (0 : Int).toNat (List.replicate 522240 7) + 1) := by
    rw [hcw]
    decide
  have hw := write_eq fsF 25 0 (List.replicate 522240 7)
    (EntryBlock.new "f" 25 .regularFile false 0)
    (by decide) (by decide) fsF_WF hz (by decide) (by decide)
  rw [hcw] at hw
  have hwb : (write fsF 25 0 (List.replicate 522240 7)).blocks =
      (25, .entry ⟨(EntryBlock.new "f" 25 .regularFile false 0).name,
        (EntryBlock.new "f" 25 .regularFile false 0).is_tag,
        { (EntryBlock.new "f" 25 .regularFile false 0).attr with
            size := (List.replicate 522240 7).length },
        find_free_blockB (allocsBm fsF.bitmap 256)⟩) ::
      (find_free_blockB (allocsBm fsF.bitmap 256),
        .index ⟨setSlotsGo (List.replicate 255 0) 0 (allocs fsF.bitmap 256),
          0⟩) ::
      (write_data_blocks_go fsF (List.replicate 522240 7) 0 256).2.blocks :=
    congrArg BlockCache.blocks hw
  have hmd : moreDataOf (write fsF 25 0 (List.replicate 522240 7)) 25 =
      find_free_blockB (allocsBm fsF.bitmap 256) := by
    rw [moreDataOf, retrieve_entry_block, hwb, lookupB, if_pos rfl]
  have hib : retrieve_index_block (write fsF 25 0 (List.replicate 522240 7))
      (find_free_blockB (allocsBm fsF.bitmap 256)) =
      some ⟨setSlotsGo (List.replicate 255 0) 0 (allocs fsF.bitmap 256),
        0⟩ := by
    rw [retrieve_index_block, hwb, lookupB,
      if_neg (by decide : ¬((25 : Nat) =
        find_free_blockB (allocsBm fsF.bitmap 256))),
      lookupB, if_pos rfl]
  rw [hmd, read_eval]
  rw [show (522240 : Nat) / BLOCK_SIZE = 255 from by decide]
  rw [show (300 : Nat) = 298 + 2 from by norm_num]
  rw [collectGo_oob (write fsF 25 0 (List.replicate 522240 7)) 255 298
    (find_free_blockB (allocsBm fsF.bitmap 256))
    (setSlotsGo (List.replicate 255 0) 0 (allocs fsF.bitmap 256))
    (by decide) hib (by decide) (by decide)]

/-- Claim C1 amended: after `mknod(20, "f", regular-file)` on the
formatted image (file inode 25), for every byte sequence `data` of
length `L` with `B < L < 255 * B` (more than one block, at most the
255 slots of the single IndexBlock that `write` creates), writing
`data` at offset 0 and then reading `L` bytes from
`retrieve_entry_block(25).more_data` at offset 0 returns a byte
sequence whose first `L` bytes equal `data`. -/
theorem c1_amended (data : List Nat)
    (h1 : 2048 < data.length) (h2 : data.length < 522240) :
    Option.map (List.take data.length)
      (read (write fsF 25 0 data) 300 (moreDataOf (write fsF 25 0 data) 25)
        0 data.length) = some data := by
  have hcw : wcount (0 : Int).toNat data = data.length / BLOCK_SIZE + 1 := by
    show wcount 0 data = data.length / BLOCK_SIZE + 1
    rw [wcount, llen_eq]
    simp
  have hcnt : wcount (0 : Int).toNat data ≤ BLOCK_SIZE / 8 - 1 := by
    rw [hcw]
    simp only [BLOCK_SIZE]
    omega
  have hz : 0 ∉ allocs fsF.bitmap (wcount (0 : Int).toNat data + 1) := by
    intro hm
    rw [allocs_take fsF.bitmap 257 (wcount (0 : Int).toNat data + 1)
      (by rw [hcw]; simp only [BLOCK_SIZE]; omega)] at hm
    exact absurd (List.mem_of_mem_take hm) (by decide)
  have hspec := writeSpec_holds fsF 25 0 data
    (EntryBlock.new "f" 25 .regularFile false 0)
    (by decide) (by decide) (by decide) fsF_WF hz hcnt (by decide) (by decide)
  obtain ⟨hL1, hsnoc, hnodup, hfree, hdata, hib, hent⟩ := hspec
  have hmd : moreDataOf (write fsF 25 0 data) 25 =
      find_free_blockB (allocsBm fsF.bitmap (wcount (0 : Int).toNat data)) := by
    rw [moreDataOf, hent]
  have hibno_mem : find_free_blockB
      (allocsBm fsF.bitmap (wcount (0 : Int).toNat data)) ∈
      allocs fsF.bitmap (wcount (0 : Int).toNat data + 1) := by
    rw [hsnoc]
    exact List.mem_append_right _ (List.mem_singleton.mpr rfl)
  have hibz : find_free_blockB
      (allocsBm fsF.bitmap (wcount (0 : Int).toNat data)) ≠ 0 :=
    fun he => hz (he ▸ hibno_mem)
  have hb0mem : lget 0 (allocs fsF.bitmap (wcount (0 : Int).toNat data)) 0 ∈
      allocs fsF.bitmap (wcount (0 : Int).toNat data) := by
    apply lget_mem
    rw [allocs_length, hcw]
    exact Nat.succ_pos _
  have hb0in : lget 0 (allocs fsF.bitmap (wcount (0 : Int).toNat data)) 0 ∈
      allocs fsF.bitmap (wcount (0 : Int).toNat data + 1) := by
    rw [hsnoc]
    exact List.mem_append_left _ hb0mem
  have hb0 : lget 0 (allocs fsF.bitmap (wcount (0 : Int).toNat data)) 0 ≠ 0 :=
    fun he => hz (he ▸ hb0in)
  have hbl_len : (allocs fsF.bitmap (wcount (0 : Int).toNat data) ++
      List.replicate (BLOCK_SIZE / 8 - 1 - wcount (0 : Int).toNat data)
        0).length = 255 := by
    rw [List.length_append, allocs_length, List.length_replicate, hcw]
    simp only [BLOCK_SIZE]
    omega
  have hbl0 : lget 0 (allocs fsF.bitmap (wcount (0 : Int).toNat data) ++
      List.replicate (BLOCK_SIZE / 8 - 1 - wcount (0 : Int).toNat data) 0) 0 =
      lget 0 (allocs fsF.bitmap (wcount (0 : Int).toNat data)) 0 := by
    apply lget_append_left
    rw [allocs_length, hcw]
    exact Nat.succ_pos _
  have hcol := collectGo_single (write fsF 25 0 data)
    (data.length / BLOCK_SIZE) 298
    (find_free_blockB (allocsBm fsF.bitmap (wcount (0 : Int).toNat data)))
    (allocs fsF.bitmap (wcount (0 : Int).toNat data) ++
      List.replicate (BLOCK_SIZE / 8 - 1 - wcount (0 : Int).toNat data) 0)
    hibz hib (by rw [hbl0]; exact hb0)
    (by rw [hbl_len]; simp only [BLOCK_SIZE]; omega)
  have htake : (allocs fsF.bitmap (wcount (0 : Int).toNat data) ++
      List.replicate (BLOCK_SIZE / 8 - 1 - wcount (0 : Int).toNat data)
        0).take (data.length / BLOCK_SIZE + 1) =
      allocs fsF.bitmap (wcount (0 : Int).toNat data) := by
    rw [show data.length / BLOCK_SIZE + 1 =
      (allocs fsF.bitmap (wcount (0 : Int).toNat data)).length from by
        rw [allocs_length, hcw]]
    exact List.take_left _ _
  have hread : readData (write fsF 25 0 data)
      (allocs fsF.bitmap (wcount (0 : Int).toNat data)) =
      joinChunks data 0
        (allocs fsF.bitmap (wcount (0 : Int).toNat data)).length := by
    apply readData_chunks
    intro i hi
    rw [Nat.zero_add]
    rw [allocs_length] at hi
    exact hdata i hi
  have hjoin : (joinChunks data 0
      (allocs fsF.bitmap (wcount (0 : Int).toNat data)).length).take
        data.length = data := by
    rw [allocs_length, hcw]
    exact joinChunks_take (data.length / BLOCK_SIZE) data rfl
  have hfin : read (write fsF 25 0 data) 300
      (find_free_blockB (allocsBm fsF.bitmap (wcount (0 : Int).toNat data))) 0
      data.length = some (readData (write fsF 25 0 data)
        (allocs fsF.bitmap (wcount (0 : Int).toNat data))) := by
    rw [read_eval]
    rw [show (300 : Nat) = 298 + 2 from by norm_num]
    rw [hcol, htake]
  rw [hmd, hfin, hread]
  show some ((joinChunks data 0
      (allocs fsF.bitmap (wcount (0 : Int).toNat data)).length).take
        data.length) = some data
  rw [hjoin]

/-- Claim C1 amended, witness: 3000 bytes as in the spec scenario. -/
theorem c1_amended_witness :
    2048 < (List.replicate 3000 7).length ∧
    (List.replicate 3000 7).length < 522240 ∧
    Option.map (List.take (List.replicate 3000 7).length)
      (read (write fsF 25 0 (List.replicate 3000 7)) 300
        (moreDataOf (write fsF 25 0 (List.replicate 3000 7)) 25) 0
        (List.replicate 3000 7).length) = some (List.replicate 3000 7) :=
  ⟨by rw [List.length_replicate]; decide, by rw [List.length_replicate]; decide,
    c1_amended (List.replicate 3000 7) (by rw [List.length_replicate]; decide)
      (by rw [List.length_replicate]; decide)⟩

/-! ## C10: the slot accesses of `read` stay in bounds -/

/-- Claim C10: for every cache, fuel, index head, size and offset
`≥ 0`, under the precondition that `(offset+size)/B` is strictly below
the slot-array length of every resident IndexBlock, every slot access
`ib.block[n]` for `n` in `[offset/B, (offset+size)/B]` is in bounds
and `read` returns normally: the `none` result that models the
panicking out-of-bounds access is unreachable. -/
theorem c10_read_in_bounds (c : BlockCache) (fuel head : Nat) (offset : Int)
    (size : Nat) (hoff : 0 ≤ offset)
    (hb : ∀ bno ib, lookupB bno c.blocks = some (.index ib) →
      (offset.toNat + size) / BLOCK_SIZE < ib.block.length) :
    read c fuel head offset size ≠ none := by
  rw [read]
  by_cases hneg : offset < 0
  · rw [if_pos hneg]
    simp
  · rw [if_neg hneg]
    have hcol := collectGo_ne_none c (offset.toNat / BLOCK_SIZE)
      ((offset.toNat + size) / BLOCK_SIZE)
      (Nat.div_le_div_right (by omega))
      (fun bno ib hr => hb bno ib (retrieve_index_inv c bno ib hr))
      fuel head
    intro h
    replace h : (match collectGo c (offset.toNat / BLOCK_SIZE)
        ((offset.toNat + size) / BLOCK_SIZE) fuel head with
      | none => none
      | some list => some (readData c list)) = none := h
    cases hc : collectGo c (offset.toNat / BLOCK_SIZE)
        ((offset.toNat + size) / BLOCK_SIZE) fuel head with
    | none => exact hcol hc
    | some l => rw [hc] at h; simp at h

/-- Claim C10, witness: a cache holding one 255-slot index block at
block 1 with head 1, offset 0 and size 100: `(0+100)/B = 0 < 255`. -/
theorem c10_read_in_bounds_witness :
    (0 : Int) ≤ 0 ∧ read ibCache 5 1 0 100 ≠ none :=
  ⟨by decide,
    c10_read_in_bounds ibCache 5 1 0 100 (by decide)
      (fun bno ib h => by
        rw [show ibCache.blocks =
          [(1, AnyBlock.index ⟨List.replicate 255 3, 0⟩)] from rfl] at h
        rw [lookupB] at h
        by_cases hb1 : (1 : Nat) = bno
        · rw [if_pos hb1] at h
          injection h with h1
          injection h1 with h2
          subst h2
          decide
        · rw [if_neg hb1, lookupB] at h
          exact Option.noConfusion h)⟩

/-! ## C7: the on-disk entry-block round trip -/

/-- The kind byte codec is lossless over the seven FileType values. -/
theorem u8kind_roundtrip (k : FileType) : u8_to_kind (kind_to_u8 k) = some k := by
  cases k <;> rfl

theorem read_write_entry (e : EntryBlock)
    (hino : e.attr.ino < 2 ^ 64) (hsize : e.attr.size < 2 ^ 64)
    (hblocks : e.attr.blocks < 2 ^ 64)
    (hatime : e.attr.atime / 1000000 < 2 ^ 64)
    (hmtime : e.attr.mtime / 1000000 < 2 ^ 64)
    (hctime : e.attr.ctime / 1000000 < 2 ^ 64)
    (hcrtime : e.attr.crtime / 1000000 < 2 ^ 64)
    (hperm : e.attr.perm < 65536)
    (hnlink : e.attr.nlink < 2 ^ 32) (huid : e.attr.uid < 2 ^ 32)
    (hgid : e.attr.gid < 2 ^ 32) (hrdev : e.attr.rdev < 2 ^ 32)
    (hflags : e.attr.flags < 2 ^ 32) (hblksize : e.attr.blksize < 2 ^ 32)
    (hmore : e.more_data < 2 ^ 64) :
    read_entry_block (write_entry_block e) =
      some { name := ""
             is_tag := e.is_tag
             attr := { e.attr with
                       atime := e.attr.atime / 1000000 * 1000000
                       mtime := e.attr.mtime / 1000000 * 1000000
                       ctime := e.attr.ctime / 1000000 * 1000000
                       crtime := e.attr.crtime / 1000000 * 1000000 }
             more_data := e.more_data } := by
  obtain ⟨nm, tg, ⟨ino, size, blocks, ta, tm, tc, tr, kd, pm, nl, ui, gi, rd, fl, bs⟩, md⟩ := e
  replace hino : ino < 2 ^ 64 := hino
  replace hsize : size < 2 ^ 64 := hsize
  replace hblocks : blocks < 2 ^ 64 := hblocks
  replace hatime : ta / 1000000 < 2 ^ 64 := hatime
  replace hmtime : tm / 1000000 < 2 ^ 64 := hmtime
  replace hctime : tc / 1000000 < 2 ^ 64 := hctime
  replace hcrtime : tr / 1000000 < 2 ^ 64 := hcrtime
  replace hperm : pm < 65536 := hperm
  replace hnlink : nl < 2 ^ 32 := hnlink
  replace huid : ui < 2 ^ 32 := huid
  replace hgid : gi < 2 ^ 32 := hgid
  replace hrdev : rd < 2 ^ 32 := hrdev
  replace hflags : fl < 2 ^ 32 := hflags
  replace hblksize : bs < 2 ^ 32 := hblksize
  replace hmore : md < 2 ^ 64 := hmore
  have hlen : (write_entry_block
      ⟨nm, tg, ⟨ino, size, blocks, ta, tm, tc, tr, kd, pm, nl, ui, gi, rd, fl, bs⟩,
        md⟩).length = BLOCK_SIZE := by
    simp only [write_entry_block, PTFEntryMagic, store64, store32, store_time,
      List.length_append, List.length_cons, List.length_nil,
      List.length_replicate, BLOCK_SIZE]
  rw [read_entry_block, if_pos hlen]
  rw [if_pos (show (write_entry_block
      ⟨nm, tg, ⟨ino, size, blocks, ta, tm, tc, tr, kd, pm, nl, ui, gi, rd, fl, bs⟩,
        md⟩).take 8 = PTFEntryMagic from rfl)]
  rw [show lget 0 (write_entry_block
      ⟨nm, tg, ⟨ino, size, blocks, ta, tm, tc, tr, kd, pm, nl, ui, gi, rd, fl, bs⟩,
        md⟩) 92 = kind_to_u8 kd from rfl]
  rw [u8kind_roundtrip kd]
  refine congrArg some ?_
  rw [EntryBlock.mk.injEq]
  refine ⟨rfl, ?_, ?_, ?_⟩
  · rw [show lget 0 (write_entry_block
        ⟨nm, tg, ⟨ino, size, blocks, ta, tm, tc, tr, kd, pm, nl, ui, gi, rd, fl, bs⟩,
          md⟩) 93 = (if tg then (1 : Nat) else 0) from rfl]
    cases tg <;> rfl
  · rw [FileAttr.mk.injEq]
    refine ⟨?_, ?_, ?_, ?_, ?_, ?_, ?_, rfl, ?_, ?_, ?_, ?_, ?_, ?_, ?_⟩
    · show ino % 256 + 256 * (ino / 256 % 256 + 256 * (ino / 65536 % 256 +
        256 * (ino / 16777216 % 256 + 256 * (ino / 4294967296 % 256 +
        256 * (ino / 1099511627776 % 256 + 256 * (ino / 281474976710656 % 256 +
        256 * (ino / 72057594037927936 % 256))))))) = ino
      omega
    · show size % 256 + 256 * (size / 256 % 256 + 256 * (size / 65536 % 256 +
        256 * (size / 16777216 % 256 + 256 * (size / 4294967296 % 256 +
        256 * (size / 1099511627776 % 256 + 256 * (size / 281474976710656 % 256 +
        256 * (size / 72057594037927936 % 256))))))) = size
      omega
    · show blocks % 256 + 256 * (blocks / 256 % 256 + 256 * (blocks / 65536 % 256 +
        256 * (blocks / 16777216 % 256 + 256 * (blocks / 4294967296 % 256 +
        256 * (blocks / 1099511627776 % 256 + 256 * (blocks / 281474976710656 % 256 +
        256 * (blocks / 72057594037927936 % 256))))))) = blocks
      omega
    · show (ta / 1000000 % 256 + 256 * (ta / 1000000 / 256 % 256 +
        256 * (ta / 1000000 / 65536 % 256 + 256 * (ta / 1000000 / 16777216 % 256 +
        256 * (ta / 1000000 / 4294967296 % 256 +
        256 * (ta / 1000000 / 1099511627776 % 256 +
        256 * (ta / 1000000 / 281474976710656 % 256 +
        256 * (ta / 1000000 / 72057594037927936 % 256)))))))) * 1000000 =
        ta / 1000000 * 1000000
      omega
    · show (tm / 1000000 % 256 + 256 * (tm / 1000000 / 256 % 256 +
        256 * (tm / 1000000 / 65536 % 256 + 256 * (tm / 1000000 / 16777216 % 256 +
        256 * (tm / 1000000 / 4294967296 % 256 +
        256 * (tm / 1000000 / 1099511627776 % 256 +
        256 * (tm / 1000000 / 281474976710656 % 256 +
        256 * (tm / 1000000 / 72057594037927936 % 256)))))))) * 1000000 =
        tm / 1000000 * 1000000
      omega
    · show (tc / 1000000 % 256 + 256 * (tc / 1000000 / 256 % 256 +
        256 * (tc / 1000000 / 65536 % 256 + 256 * (tc / 1000000 / 16777216 % 256 +
        256 * (tc / 1000000 / 4294967296 % 256 +
        256 * (tc / 1000000 / 1099511627776 % 256 +
        256 * (tc / 1000000 / 281474976710656 % 256 +
        256 * (tc / 1000000 / 72057594037927936 % 256)))))))) * 1000000 =
        tc / 1000000 * 1000000
      omega
    · show (tr / 1000000 % 256 + 256 * (tr / 1000000 / 256 % 256 +
        256 * (tr / 1000000 / 65536 % 256 + 256 * (tr / 1000000 / 16777216 % 256 +
        256 * (tr / 1000000 / 4294967296 % 256 +
        256 * (tr / 1000000 / 1099511627776 % 256 +
        256 * (tr / 1000000 / 281474976710656 % 256 +
        256 * (tr / 1000000 / 72057594037927936 % 256)))))))) * 1000000 =
        tr / 1000000 * 1000000
      omega
    · show (pm % 256 + 256 * (pm / 256 % 256 + 256 * (pm / 65536 % 256 +
        256 * (pm / 16777216 % 256)))) % 65536 = pm
      omega
    · show nl % 256 + 256 * (nl / 256 % 256 + 256 * (nl / 65536 % 256 +
        256 * (nl / 16777216 % 256))) = nl
      omega
    · show ui % 256 + 256 * (ui / 256 % 256 + 256 * (ui / 65536 % 256 +
        256 * (ui / 16777216 % 256))) = ui
      omega
    · show gi % 256 + 256 * (gi / 256 % 256 + 256 * (gi / 65536 % 256 +
        256 * (gi / 16777216 % 256))) = gi
      omega
    · show rd % 256 + 256 * (rd / 256 % 256 + 256 * (rd / 65536 % 256 +
        256 * (rd / 16777216 % 256))) = rd
      omega
    · show fl % 256 + 256 * (fl / 256 % 256 + 256 * (fl / 65536 % 256 +
        256 * (fl / 16777216 % 256))) = fl
      omega
    · show bs % 256 + 256 * (bs / 256 % 256 + 256 * (bs / 65536 % 256 +
        256 * (bs / 16777216 % 256))) = bs
      omega
  · show md % 256 + 256 * (md / 256 % 256 + 256 * (md / 65536 % 256 +
      256 * (md / 16777216 % 256 + 256 * (md / 4294967296 % 256 +
      256 * (md / 1099511627776 % 256 + 256 * (md / 281474976710656 % 256 +
      256 * (md / 72057594037927936 % 256))))))) = md
    omega

/-- Claim C7, counterexample: `write_entry_block` stores no name and
`read_entry_block` always returns `name = ""`, so the round trip is
not the identity modulo time quantisation.  At
`EntryBlock.new "x" 1 regular-file false 0` every time field is 0 and
quantisation is the identity, yet the decoded block differs from the
original in the name. -/
theorem c7_counterexample :
    read_entry_block (write_entry_block (EntryBlock.new "x" 1 .regularFile false 0)) ≠
      some (EntryBlock.new "x" 1 .regularFile false 0) := by
  intro h
  rw [read_write_entry (EntryBlock.new "x" 1 .regularFile false 0)
    (by decide) (by decide) (by decide) (by decide) (by decide) (by decide)
    (by decide) (by decide) (by decide) (by decide) (by decide) (by decide)
    (by decide) (by decide) (by decide)] at h
  exact absurd h (by decide)

/-- Claim C7 amended: for every in-memory EntryBlock whose scalar
fields fit their on-disk widths (u64 counters and block numbers, u32
ids and flags, u16 perm, and millisecond timestamps below `2^64`),
decoding the bytes of `write_entry_block` with `read_entry_block`
succeeds and yields the EntryBlock with the four time fields quantised
to milliseconds since the Unix epoch AND the name reset to the empty
string: the on-disk layout stores no name (cf. the counterexample), so
the claimed equality modulo time quantisation alone does not hold. -/
theorem c7_amended (e : EntryBlock)
    (hino : e.attr.ino < 2 ^ 64) (hsize : e.attr.size < 2 ^ 64)
    (hblocks : e.attr.blocks < 2 ^ 64)
    (hatime : e.attr.atime / 1000000 < 2 ^ 64)
    (hmtime : e.attr.mtime / 1000000 < 2 ^ 64)
    (hctime : e.attr.ctime / 1000000 < 2 ^ 64)
    (hcrtime : e.attr.crtime / 1000000 < 2 ^ 64)
    (hperm : e.attr.perm < 65536)
    (hnlink : e.attr.nlink < 2 ^ 32) (huid : e.attr.uid < 2 ^ 32)
    (hgid : e.attr.gid < 2 ^ 32) (hrdev : e.attr.rdev < 2 ^ 32)
    (hflags : e.attr.flags < 2 ^ 32) (hblksize : e.attr.blksize < 2 ^ 32)
    (hmore : e.more_data < 2 ^ 64) :
    read_entry_block (write_entry_block e) =
      some { name := ""
             is_tag := e.is_tag
             attr := { e.attr with
                       atime := e.attr.atime / 1000000 * 1000000
                       mtime := e.attr.mtime / 1000000 * 1000000
                       ctime := e.attr.ctime / 1000000 * 1000000
                       crtime := e.attr.crtime / 1000000 * 1000000 }
             more_data := e.more_data } :=
  read_write_entry e hino hsize hblocks hatime hmtime hctime hcrtime hperm
    hnlink huid hgid hrdev hflags hblksize hmore

/-- Claim C7 amended, witness: the sample entry block; its timestamps
are not on millisecond boundaries, so the quantisation is visible. -/
theorem c7_amended_witness :
    entrySample.attr.ino < 2 ^ 64 ∧ entrySample.attr.size < 2 ^ 64 ∧
    entrySample.attr.blocks < 2 ^ 64 ∧
    entrySample.attr.atime / 1000000 < 2 ^ 64 ∧
    entrySample.attr.mtime / 1000000 < 2 ^ 64 ∧
    entrySample.attr.ctime / 1000000 < 2 ^ 64 ∧
    entrySample.attr.crtime / 1000000 < 2 ^ 64 ∧
    entrySample.attr.perm < 65536 ∧
    entrySample.attr.nlink < 2 ^ 32 ∧ entrySample.attr.uid < 2 ^ 32 ∧
    entrySample.attr.gid < 2 ^ 32 ∧ entrySample.attr.rdev < 2 ^ 32 ∧
    entrySample.attr.flags < 2 ^ 32 ∧ entrySample.attr.blksize < 2 ^ 32 ∧
    entrySample.more_data < 2 ^ 64 ∧
    read_entry_block (write_entry_block entrySample) =
      some { name := ""
             is_tag := entrySample.is_tag
             attr := { entrySample.attr with
                       atime := entrySample.attr.atime / 1000000 * 1000000
                       mtime := entrySample.attr.mtime / 1000000 * 1000000
                       ctime := entrySample.attr.ctime / 1000000 * 1000000
                       crtime := entrySample.attr.crtime / 1000000 * 1000000 }
             more_data := entrySample.more_data } :=
  ⟨by decide, by decide, by decide, by decide, by decide, by decide, by decide,
    by decide, by decide, by decide, by decide, by decide, by decide,
    by decide, by decide,
    c7_amended entrySample (by decide) (by decide) (by decide) (by decide)
      (by decide) (by decide) (by decide) (by decide) (by decide) (by decide)
      (by decide) (by decide) (by decide) (by decide) (by decide)⟩

end PTF
